import Mathlib

/-!
Verification development for the LED_Voltage_Calculator repository.

The numeric pipeline of the repository is embedded shallowly: Python floats
are modelled as exact rationals (`ℚ`), CSV tables as lists of lists of
rationals, and the file system (where a claim depends on it) as explicit
`Option`-valued inputs.  Where a claim is specifically about IEEE-754
floating point behaviour, a second model with explicit round-to-nearest-even
on 53-bit significands is used and is clearly marked as such.

Each embedded definition is translated from the corresponding Python
function in `src/core_functions/`; the source file and function are named
in the doc comment of every definition.
-/

namespace LEDVC

/-! ### Generic helpers -/

/-- Stable insertion by a strict Boolean comparison: `a` is placed before the
first element `b` with `lt a b`; equal keys keep their original order, which
matches the stability of Python `sorted` and the behaviour of `np.sort` on
values. -/
def insertByLt {α : Type} (lt : α → α → Bool) (a : α) : List α → List α
  | [] => [a]
  | b :: l => if lt a b then a :: b :: l else b :: insertByLt lt a l

/-- Stable insertion sort driven by a strict Boolean comparison. -/
def sortByLt {α : Type} (lt : α → α → Bool) (l : List α) : List α :=
  l.foldl (fun acc a => insertByLt lt a acc) []

/-- Model of `np.sort` / Python `sorted` on a list of numbers. -/
def sortQ (l : List ℚ) : List ℚ :=
  sortByLt (fun a b => decide (a < b)) l

/-- Model of `sorted(zip(x_data, y_data), key=lambda pair: pair[0])` from
`step5_interpolation_1.py`: stable sort of pairs by first component. -/
def sortPairsQ (l : List (ℚ × ℚ)) : List (ℚ × ℚ) :=
  sortByLt (fun p q => decide (p.1 < q.1)) l

/-! ### step4_mixbin_calc_1.py : mix-bin combination generator -/

/-- Model of the per-row padding in `_read_first5_rows_4cols`
(`step4_mixbin_calc_1.py`): keep the first 4 cells and pad missing cells
with `0` (blank cells parse to `"0"`). -/
def pad4 (r : List ℚ) : List ℚ :=
  r.take 4 ++ List.replicate (4 - r.length) 0

/-- Model of `_read_first5_rows_4cols` (`step4_mixbin_calc_1.py`): only the
first 5 rows of the channel CSV are read (`if i >= 5: break`), each reduced
to its first 4 columns. -/
def readFirst5Rows (rows : List (List ℚ)) : List (List ℚ) :=
  (rows.take 5).map pad4

/-- Model of `_is_all_zero` (`step4_mixbin_calc_1.py`). -/
def isAllZero (r : List ℚ) : Bool :=
  r.all (fun x => decide (x = 0))

/-- Model of `_collect_candidates` (`step4_mixbin_calc_1.py`): the candidate
rows of a channel are the rows among the first 5 whose first 4 columns are
not all zero. -/
def collectCandidates (rows : List (List ℚ)) : List (List ℚ) :=
  (readFirst5Rows rows).filter (fun r => !(isAllZero r))

/-- Model of the placeholder substitution in `build_mixbin_combos`
(`step4_mixbin_calc_1.py`): a channel with no candidate rows is replaced by
the single placeholder row `(0,0,0,0)`. -/
def padChannel (cands : List (List ℚ)) : List (List ℚ) :=
  if cands.isEmpty then [[0, 0, 0, 0]] else cands

/-- Model of `itertools.product`: Cartesian product of a list of lists, with
the last factor varying fastest. -/
def cartProd {α : Type} : List (List α) → List (List α)
  | [] => [[]]
  | xs :: rest => xs.flatMap (fun x => (cartProd rest).map (fun ys => x :: ys))

/-- Model of `build_mixbin_combos` (`step4_mixbin_calc_1.py`) after the
per-channel candidates have been collected: pad empty channels with the
placeholder row, take the Cartesian product across channels (last channel
varying fastest) and concatenate each choice into one combination row. -/
def buildMixbinCombos (chans : List (List (List ℚ))) : List (List ℚ) :=
  (cartProd (chans.map padChannel)).map List.flatten

/-- Effective candidate count of a channel: a channel with zero qualifying
rows contributes `1` (the placeholder row). -/
def cnt (c : List (List ℚ)) : ℕ :=
  if c.length = 0 then 1 else c.length

/-! ### step4_mixbin_calc_3.py : per-group normalization and output formatting -/

/-- Round-half-even as performed by Python `round` on an exact value: nearest
integer, ties going to the even integer. -/
def roundHalfEven (q : ℚ) : ℤ :=
  if q - ⌊q⌋ < 1 / 2 then ⌊q⌋
  else if (1 : ℚ) / 2 < q - ⌊q⌋ then ⌊q⌋ + 1
  else if ⌊q⌋ % 2 = 0 then ⌊q⌋ else ⌊q⌋ + 1

/-- Model of Python `round(x, 6)` on an exact rational value. -/
def round6 (q : ℚ) : ℚ :=
  (roundHalfEven (q * 1000000) : ℚ) / 1000000

/-- Model of `_fmt` (`step4_mixbin_calc_3.py`), value level: values below
`1e-15` in magnitude are snapped to `0`, then the value is rounded to 6
decimals (the integer/decimal string distinction does not change the value). -/
def fmtVal (x : ℚ) : ℚ :=
  round6 (if |x| < 1 / 10 ^ 15 then 0 else x)

/-- The 4-column group `g` of a row, mirroring `vals[beg:end]` with
`beg = g * GROUP_SIZE` in `build_mixbin_percentages`. -/
def group4 (vals : List ℚ) (g : ℕ) : List ℚ :=
  (vals.drop (4 * g)).take 4

/-- Model of the row padding/truncation in `build_mixbin_percentages`
(`step4_mixbin_calc_3.py`): `row[:TOTAL_COLS] + ["0"] * max(0, TOTAL_COLS - len(row))`. -/
def padTo20 (row : List ℚ) : List ℚ :=
  row.take 20 ++ List.replicate (20 - row.length) 0

/-- Model of the per-group normalization in `build_mixbin_percentages`: if the
group sum is positive every component is divided by it, otherwise the group is
replaced by `(0,0,0,0)`. -/
def normGroup (g : List ℚ) : List ℚ :=
  if 0 < g.sum then g.map (fun v => v / g.sum) else [0, 0, 0, 0]

/-- Model of the numeric content of one output row of
`build_mixbin_percentages` before formatting: each of the 5 groups of 4 is
normalized in place. -/
def normalizeRow (row : List ℚ) : List ℚ :=
  List.flatten ((List.range 5).map (fun g => normGroup (group4 (padTo20 row) g)))

/-- Model of one output row of `build_mixbin_percentages` including the
`_fmt` 6-decimal output rounding. -/
def buildMixbinPercentRow (row : List ℚ) : List ℚ :=
  (normalizeRow row).map fmtVal

/-- Model of `build_mixbin_percentages` over the whole combos table. -/
def buildMixbinPercentages (rows : List (List ℚ)) : List (List ℚ) :=
  rows.map buildMixbinPercentRow

/-! ### step3_bin_process.py : bin partitioner -/

/-- Absolute tolerance used by `_cut_into_bins` (`tolerance = 1e-10`). -/
def binTol : ℚ := 1 / 10 ^ 10

/-- Model of the interval filter in `_get_valid_intervals`
(`step3_bin_process.py`): bin `b` (0-based) is active when neither boundary
node is the 0 sentinel and the lower node is strictly below the upper one. -/
def binActive (nodes : List ℚ) (b : ℕ) : Bool :=
  !decide (nodes.getD b 0 = 0) && (!decide (nodes.getD (b + 1) 0 = 0)
    && decide (nodes.getD b 0 < nodes.getD (b + 1) 0))

/-- Model of the membership mask of `_cut_into_bins`:
`is_gt(s, lower) & is_le(s, upper)` with the 1e-10 tolerance, i.e.
`lower - tol < v ∧ v ≤ upper + tol`. -/
def inBinMask (lo hi v : ℚ) : Bool :=
  decide (lo - binTol < v) && decide (v ≤ hi + binTol)

/-- Model of `_cut_into_bins` (`step3_bin_process.py`): the four bin
sub-populations; inactive bins stay empty. -/
def cutIntoBins (pop : List ℚ) (nodes : List ℚ) : List (List ℚ) :=
  (List.range 4).map (fun b =>
    if binActive nodes b
    then pop.filter (fun v => inBinMask (nodes.getD b 0) (nodes.getD (b + 1) 0) v)
    else [])

/-- Model of the unassigned-data report of `_cut_into_bins`: the elements
matching no active bin mask. -/
def unassignedData (pop : List ℚ) (nodes : List ℚ) : List ℚ :=
  pop.filter (fun v =>
    !((List.range 4).any (fun b =>
      binActive nodes b
        && inBinMask (nodes.getD b 0) (nodes.getD (b + 1) 0) v)))

/-! ### step7_final_calculation.py : Monte Carlo input loading -/

/-- Model of one slot of `_load_bin_data_memory_efficient`
(`step7_final_calculation.py`): a missing, empty or unreadable population
file yields the default single-element population `[0]`; a readable file
yields its parsed numeric content. -/
def loadBinSlot : Option (List ℚ) → List ℚ
  | none => [0]
  | some l => l

/-- Model of `_load_bin_data_memory_efficient` over the 20 expected
population files. -/
def loadBinData (files : List (Option (List ℚ))) : List (List ℚ) :=
  files.map loadBinSlot

/-- Model of the input-loading phase of `run_monte_carlo_simulation`
(`step7_final_calculation.py`), up to the point where the per-combination
simulation loop would start: a missing combination file is an error, an
empty/unparseable combination table is an error, and the population files
are loaded through `loadBinSlot` (never an error). -/
def monteCarloPreflight (combosFile : Option (List (List ℚ)))
    (binFiles : List (Option (List ℚ))) :
    Except String (List (List ℚ) × List (List ℚ)) :=
  match combosFile with
  | none => Except.error "combos file missing"
  | some rows =>
    let combosData := rows.filter (fun r => !r.isEmpty)
    if combosData.isEmpty then Except.error "combos file empty or unparseable"
    else if (loadBinData binFiles).length ≠ 20 then Except.error "bin data count mismatch"
    else Except.ok (combosData, loadBinData binFiles)

/-! ### step1_rawdata_analysis.py : shortest interval covering a target probability -/

/-- Model of the `CategoryStatsEntry` dataclass of `step1_rawdata_analysis.py`. -/
structure CategoryStatsEntry where
  value : ℚ
  count : ℕ
  proportion : ℚ

/-- The floating tolerance `1e-12` used by `find_shortest_interval_covering_prob`. -/
def eps12 : ℚ := 1 / 1000000000000

/-- Model of the inner loop of `find_shortest_interval_covering_prob`:
starting from accumulated probability `c`, scan the proportion list and
return the relative index of the first position where the accumulated
probability plus `1e-12` reaches the target. -/
def scanIdx (t : ℚ) : ℚ → List ℚ → Option ℕ
  | _, [] => none
  | c, p :: ps => if t ≤ c + p + eps12 then some 0 else (scanIdx t (c + p) ps).map (· + 1)

/-- The first right endpoint `j` (absolute index) at which the interval
starting at `i` reaches the target, i.e. the `j` at which the inner loop of
`find_shortest_interval_covering_prob` breaks. -/
def firstJ (props : List ℚ) (t : ℚ) (i : ℕ) : Option ℕ :=
  (scanIdx t 0 (props.drop i)).map (fun r => i + r)

/-- The probability mass of the closed index interval `[i, j]`, the source's
`sum(props[best_i : best_j + 1])`. -/
def sumFromTo (props : List ℚ) (i j : ℕ) : ℚ :=
  ((props.drop i).take (j - i + 1)).sum

/-- One iteration of the outer loop of `find_shortest_interval_covering_prob`:
state is `(best_span?, best_i, best_j)`; `best_span? = none` models the
initial `best_span = None`, and the update fires on a strictly smaller span. -/
def sweepStep (values props : List ℚ) (t : ℚ)
    (st : Option ℚ × ℕ × ℕ) (i : ℕ) : Option ℚ × ℕ × ℕ :=
  match firstJ props t i with
  | none => st
  | some j =>
    match st.1 with
    | none => (some (values.getD j 0 - values.getD i 0), i, j)
    | some b =>
      if values.getD j 0 - values.getD i 0 < b
      then (some (values.getD j 0 - values.getD i 0), i, j)
      else st

/-- The outer loop of `find_shortest_interval_covering_prob`, starting from
`best_i, best_j = 0, n - 1` and `best_span = None`. -/
def sweep (values props : List ℚ) (t : ℚ) (n : ℕ) : Option ℚ × ℕ × ℕ :=
  (List.range n).foldl (sweepStep values props t) (none, 0, n - 1)

/-- Model of the weighted-median scan at the end of
`find_shortest_interval_covering_prob`: relative index of the first position
where the accumulated in-interval probability reaches `half`. -/
def medScan (half : ℚ) : ℚ → List ℚ → Option ℕ
  | _, [] => none
  | c, p :: ps => if half ≤ c + p then some 0 else (medScan half (c + p) ps).map (· + 1)

/-- Model of `find_shortest_interval_covering_prob`
(`step1_rawdata_analysis.py`): returns `(min, median, max, interval_prob)`,
with `none` components and probability 0 on an empty table. -/
def findShortestIntervalCoveringProb (stats : List CategoryStatsEntry) (t : ℚ) :
    Option ℚ × Option ℚ × Option ℚ × ℚ :=
  if stats.length = 0 then (none, none, none, 0)
  else
    let values := stats.map (fun e => e.value)
    let props := stats.map (fun e => e.proportion)
    let res := sweep values props t stats.length
    let minVal := values.getD res.2.1 0
    let maxVal := values.getD res.2.2 0
    let intervalProb := sumFromTo props res.2.1 res.2.2
    let medianVal :=
      match medScan (intervalProb / 2) 0 ((props.drop res.2.1).take (res.2.2 - res.2.1 + 1)) with
      | some r => values.getD (res.2.1 + r) 0
      | none => minVal
    (some minVal, some medianVal, some maxVal, intervalProb)

/-- Concrete category table used to instantiate the interval-search theorem:
values 1..5 with equal counts, proportions 1/5 each. -/
def demoStats : List CategoryStatsEntry :=
  [⟨1, 1, 1 / 5⟩, ⟨2, 1, 1 / 5⟩, ⟨3, 1, 1 / 5⟩, ⟨4, 1, 1 / 5⟩, ⟨5, 1, 1 / 5⟩]

/-! ### step7_result_curve_plotting.py : highest-density interval estimator -/

/-- The loop of `calculate_highest_density_interval` that keeps the first
window with strictly smaller span: fold over the remaining windows, replacing
the current best only on a strict improvement of the weight `w`. -/
def pickLoop {α : Type} (w : α → ℚ) : α → List α → α
  | best, [] => best
  | best, x :: xs => if w x < w best then pickLoop w x xs else pickLoop w best xs

/-- Scan of the window list: an empty window list (possible only when the
window size exceeds the data length, where the source loop body never runs)
keeps the initial full range; otherwise the leftmost minimal-span window is
selected by `pickLoop`. -/
def hdiPick (s : List ℚ) : List (ℚ × ℚ) → ℚ × ℚ
  | [] => (s.headD 0, s.getLastD 0)
  | x :: xs => pickLoop (fun p => p.2 - p.1) x xs

/-- Model of `calculate_highest_density_interval`
(`step7_result_curve_plotting.py`): sort ascending, take
`hdi_size = floor((1 - alpha) * n)`; if `hdi_size <= 0` return the full range;
otherwise scan all windows of `hdi_size` consecutive sorted elements (window
`i` is `(sorted[i], sorted[i + hdi_size - 1])`, produced here by zipping the
sorted list with its own drop) and return the leftmost window of minimal
span. -/
def calculateHighestDensityInterval (data : List ℚ) (alpha : ℚ) : ℚ × ℚ :=
  if data.length = 0 then (0, 0)
  else if ⌊(1 - alpha) * ((sortQ data).length : ℚ)⌋ ≤ 0 then
    ((sortQ data).headD 0, (sortQ data).getLastD 0)
  else
    hdiPick (sortQ data)
      ((sortQ data).zip ((sortQ data).drop
        ((⌊(1 - alpha) * ((sortQ data).length : ℚ)⌋).toNat - 1)))

/-- Model of `np.median`: middle element of the sorted data for odd length,
mean of the two middle elements for even length. -/
def medianQ (data : List ℚ) : ℚ :=
  if (sortQ data).length = 0 then 0
  else if (sortQ data).length % 2 = 1 then (sortQ data).getD ((sortQ data).length / 2) 0
  else ((sortQ data).getD ((sortQ data).length / 2 - 1) 0
    + (sortQ data).getD ((sortQ data).length / 2) 0) / 2

/-- Model of `calculate_statistics` (`step7_result_curve_plotting.py`): the
4-sigma HDI at the fixed `alpha = 0.000063` together with the median of the
whole sample; `(0, 0, 0)` on empty data. -/
def calculateStatistics (data : List ℚ) : ℚ × ℚ × ℚ :=
  if data.length = 0 then (0, 0, 0)
  else
    let hdi := calculateHighestDensityInterval data (63 / 1000000)
    (hdi.1, medianQ data, hdi.2)

/-- The window size `hdi_size = int(np.floor((1 - alpha) * n))` of
`calculate_highest_density_interval`. -/
def hdiSize (data : List ℚ) (alpha : ℚ) : ℕ :=
  (⌊(1 - alpha) * (data.length : ℚ)⌋).toNat

/-! ### step5_interpolation_1.py : linear interpolation -/

/-- The bracketing loop of `linear_interpolation`
(`step5_interpolation_1.py`): find the first adjacent pair with
`x1 <= x_target <= x2` and apply
`y1 + (y2 - y1) * (x_target - x1) / (x2 - x1)`; the final `return 0` of the
source is the fall-through for an exhausted list. -/
def bracketScan (xt : ℚ) : List (ℚ × ℚ) → ℚ
  | [] => 0
  | [_] => 0
  | (x1, y1) :: (x2, y2) :: rest =>
    if x1 ≤ xt ∧ xt ≤ x2 then y1 + (y2 - y1) * (xt - x1) / (x2 - x1)
    else bracketScan xt ((x2, y2) :: rest)

/-- Branch structure of `linear_interpolation` on the sorted point list:
clamp to the first y at or below the first knot, clamp to the last y at or
above the last knot, otherwise scan for the bracketing pair. An empty point
list (an IndexError in the source, excluded by its callers) is modelled as
0. -/
def interpPick (xt : ℚ) : List (ℚ × ℚ) → ℚ
  | [] => 0
  | p :: rest =>
    if xt ≤ p.1 then p.2
    else if (rest.getLastD p).1 ≤ xt then (rest.getLastD p).2
    else bracketScan xt (p :: rest)

/-- Model of `linear_interpolation` (`step5_interpolation_1.py`) over exact
rational arithmetic. -/
def linearInterpolation (xd yd : List ℚ) (xt : ℚ) : ℚ :=
  interpPick xt (sortPairsQ (xd.zip yd))

/-- Fuel-bounded base-2 integer logarithm (fuel 64 covers all numerators and
denominators used here). -/
def ilog2Aux : ℕ → ℕ → ℕ
  | 0, _ => 0
  | fuel + 1, n => if n ≥ 2 then ilog2Aux fuel (n / 2) + 1 else 0

/-- Base-2 integer logarithm. -/
def ilog2 (n : ℕ) : ℕ := ilog2Aux 64 n

/-- Integer power of two as a rational, with negative exponents. -/
def pow2z (k : ℤ) : ℚ :=
  if 0 ≤ k then ((2 : ℚ) ^ k.toNat) else ((2 : ℚ) ^ (-k).toNat)⁻¹

/-- First approximation to the binary exponent of a positive rational. -/
def findExpBase (a : ℚ) : ℤ :=
  (ilog2 a.num.natAbs : ℤ) - (ilog2 a.den : ℤ)

/-- The binary exponent `e` of a positive rational: `2^e ≤ a < 2^(e+1)`. -/
def findExp (a : ℚ) : ℤ :=
  if a < pow2z (findExpBase a) then findExpBase a - 1
  else if a < pow2z (findExpBase a + 1) then findExpBase a
  else findExpBase a + 1

/-- Model of IEEE-754 double rounding (round to nearest, ties to even) of an
exact rational value: the significand is scaled into `[2^52, 2^53)` and
rounded half-even. Overflow and subnormals are outside the range used here. -/
def flQ (q : ℚ) : ℚ :=
  if q = 0 then 0
  else if 0 < q then
    (roundHalfEven (|q| * pow2z (52 - findExp |q|)) : ℚ) * pow2z (findExp |q| - 52)
  else
    -((roundHalfEven (|q| * pow2z (52 - findExp |q|)) : ℚ) * pow2z (findExp |q| - 52))

/-- IEEE-double addition on exact rational representatives. -/
def fadd (a b : ℚ) : ℚ := flQ (a + b)

/-- IEEE-double subtraction on exact rational representatives. -/
def fsub (a b : ℚ) : ℚ := flQ (a - b)

/-- IEEE-double multiplication on exact rational representatives. -/
def fmul (a b : ℚ) : ℚ := flQ (a * b)

/-- IEEE-double division on exact rational representatives. -/
def fdiv (a b : ℚ) : ℚ := flQ (a / b)

/-- The bracketing loop of `linear_interpolation` under IEEE-754 double
arithmetic, with the source's operation order
`y1 + (y2 - y1) * (x_target - x1) / (x2 - x1)` (multiplication before the
division, one rounding per operation). -/
def bracketScanF (xt : ℚ) : List (ℚ × ℚ) → ℚ
  | [] => 0
  | [_] => 0
  | (x1, y1) :: (x2, y2) :: rest =>
    if x1 ≤ xt ∧ xt ≤ x2 then
      fadd y1 (fdiv (fmul (fsub y2 y1) (fsub xt x1)) (fsub x2 x1))
    else bracketScanF xt ((x2, y2) :: rest)

/-- Branch structure of `linear_interpolation` under IEEE-754 double
arithmetic; the clamp branches return stored values unchanged. -/
def interpPickF (xt : ℚ) : List (ℚ × ℚ) → ℚ
  | [] => 0
  | p :: rest =>
    if xt ≤ p.1 then p.2
    else if (rest.getLastD p).1 ≤ xt then (rest.getLastD p).2
    else bracketScanF xt (p :: rest)

/-- Model of `linear_interpolation` (`step5_interpolation_1.py`) under
IEEE-754 double arithmetic. -/
def linearInterpolationF (xd yd : List ℚ) (xt : ℚ) : ℚ :=
  interpPickF xt (sortPairsQ (xd.zip yd))

/-! ### Theorems on step4_mixbin_calc_1.py : mix-bin combination generator -/

theorem padChannel_length (c : List (List ℚ)) : (padChannel c).length = cnt c := by
  unfold padChannel cnt
  rcases c with _ | ⟨r, rs⟩ <;> simp

theorem cartProd_length {α : Type} (ls : List (List α)) :
    (cartProd ls).length = (ls.map List.length).prod := by
  induction ls with
  | nil => simp [cartProd]
  | cons xs rest ih =>
    simp only [cartProd, List.length_flatMap, List.map_map, List.map_cons, List.prod_cons]
    have : ∀ x : α, (List.length ∘ fun x => (cartProd rest).map (fun ys => x :: ys)) x
        = (cartProd rest).length := by
      intro x; simp
    rw [List.map_congr_left (fun x _ => this x)]
    simp [List.sum_replicate, List.map_const, ih, Nat.smul_one_eq_cast]

theorem cartProd_ne_nil_length {α : Type} (ls : List (List α))
    (h : ∀ l ∈ ls, l ≠ []) : 0 < (cartProd ls).length := by
  rw [cartProd_length]
  apply List.prod_pos
  intro n hn
  rw [List.mem_map] at hn
  obtain ⟨l, hl, rfl⟩ := hn
  exact List.length_pos.mpr (h l hl)

theorem cartProd_getD {α : Type} (d : α) (xs : List α) (ls : List (List α))
    (m : ℕ) (hm : m < xs.length * (cartProd ls).length) :
    (cartProd (xs :: ls)).getD m [] =
      xs.getD (m / (cartProd ls).length) d :: (cartProd ls).getD (m % (cartProd ls).length) [] := by
  induction xs generalizing m with
  | nil => simp at hm
  | cons x xs ih =>
    have hT : 0 < (cartProd ls).length := by
      by_contra h
      push_neg at h
      interval_cases hTz : (cartProd ls).length
      simp [hTz] at hm
    set T := (cartProd ls).length with hTdef
    have hsplit : cartProd ((x :: xs) :: ls)
        = (cartProd ls).map (fun ys => x :: ys) ++ cartProd (xs :: ls) := by
      simp [cartProd]
    by_cases hcase : m < T
    · rw [hsplit, List.getD_append _ _ _ _ (by simpa using hcase)]
      rw [Nat.div_eq_of_lt hcase, Nat.mod_eq_of_lt hcase]
      have hm' : m < ((cartProd ls).map (fun ys => x :: ys)).length := by simpa using hcase
      rw [List.getD_eq_getElem _ _ hm', List.getElem_map]
      simp only [List.getD_cons_zero]
      congr 1
      exact (List.getD_eq_getElem _ _ (by simpa using hcase)).symm
    · push_neg at hcase
      have hrw : m = T + (m - T) := by omega
      have hlen : ((cartProd ls).map (fun ys => x :: ys)).length = T := by simp
      have hm2 : m - T < xs.length * T := by
        have h1 := hm
        simp only [List.length_cons] at h1
        have h2 : (xs.length + 1) * T = xs.length * T + T := by ring
        omega
      have hdiv : m / T = (m - T) / T + 1 := by
        conv_lhs => rw [hrw, Nat.add_comm T (m - T)]
        rw [Nat.add_div_right _ hT]
      have hmod : m % T = (m - T) % T := by
        conv_lhs => rw [hrw, Nat.add_comm T (m - T)]
        rw [Nat.add_mod_right]
      rw [hsplit, List.getD_append_right _ _ _ _ (by omega), hlen,
        ih (m - T) hm2, hdiv, hmod]
      simp only [List.getD_cons_succ]

theorem mem_cartProd_forall {α : Type} (ls : List (List α)) :
    ∀ ys ∈ cartProd ls, List.Forall₂ (fun (y : α) (l : List α) => y ∈ l) ys ls := by
  induction ls with
  | nil => intro ys hys; simp [cartProd] at hys; simp [hys]
  | cons xs rest ih =>
    intro ys hys
    simp only [cartProd, List.mem_flatMap, List.mem_map] at hys
    obtain ⟨x, hx, zs, hzs, rfl⟩ := hys
    exact List.Forall₂.cons hx (ih zs hzs)

theorem cartProd_row_length {α : Type} (ls : List (List α)) :
    ∀ ys ∈ cartProd ls, ys.length = ls.length := by
  intro ys hys
  exact (mem_cartProd_forall ls ys hys).length_eq

theorem cnt_pos (c : List (List ℚ)) : 0 < cnt c := by
  unfold cnt
  split <;> omega

theorem padChannel_row_length (c : List (List ℚ)) (h4 : ∀ r ∈ c, r.length = 4) :
    ∀ r ∈ padChannel c, r.length = 4 := by
  intro r hr
  unfold padChannel at hr
  split at hr
  · simp at hr
    simp [hr]
  · exact h4 r hr

theorem getD_map_flatten (L : List (List (List ℚ))) (m : ℕ) (hm : m < L.length) :
    (L.map List.flatten).getD m [] = List.flatten (L.getD m []) := by
  rw [List.getD_eq_getElem _ _ (by simpa using hm), List.getElem_map,
    List.getD_eq_getElem _ _ hm]

/-- C3: `build_mixbin_combos` yields exactly `cnt c1 * cnt c2 * cnt c3 * cnt c4
* cnt c5` combination rows (a channel with zero qualifying rows counting as 1
via its all-zero placeholder), each row of length 20 obtained by concatenating
one chosen 4-element row per channel in channel order, with the last channel
varying fastest: row `m` concatenates the rows at the mixed-radix digits of
`m`, the last digit being `m % cnt c5`. -/
theorem mixbin_combos_spec (c1 c2 c3 c4 c5 : List (List ℚ))
    (h4 : ∀ r, (r ∈ c1 ∨ r ∈ c2 ∨ r ∈ c3 ∨ r ∈ c4 ∨ r ∈ c5) → r.length = 4) :
    (buildMixbinCombos [c1, c2, c3, c4, c5]).length
        = cnt c1 * (cnt c2 * (cnt c3 * (cnt c4 * cnt c5)))
    ∧ (∀ row ∈ buildMixbinCombos [c1, c2, c3, c4, c5], row.length = 20)
    ∧ ∀ m < cnt c1 * (cnt c2 * (cnt c3 * (cnt c4 * cnt c5))),
        (buildMixbinCombos [c1, c2, c3, c4, c5]).getD m []
          = (padChannel c1).getD (m / (cnt c2 * (cnt c3 * (cnt c4 * cnt c5)))) []
            ++ ((padChannel c2).getD (m / (cnt c3 * (cnt c4 * cnt c5)) % cnt c2) []
            ++ ((padChannel c3).getD (m / (cnt c4 * cnt c5) % cnt c3) []
            ++ ((padChannel c4).getD (m / cnt c5 % cnt c4) []
            ++ (padChannel c5).getD (m % cnt c5) []))) := by
  have hlen : ∀ ls : List (List (List ℚ)),
      (cartProd ls).length = (ls.map List.length).prod := cartProd_length
  have e5 : (cartProd [padChannel c5]).length = cnt c5 := by
    rw [hlen]; simp [padChannel_length]
  have e4 : (cartProd [padChannel c4, padChannel c5]).length = cnt c4 * cnt c5 := by
    rw [hlen]; simp [padChannel_length]
  have e3 : (cartProd [padChannel c3, padChannel c4, padChannel c5]).length
      = cnt c3 * (cnt c4 * cnt c5) := by
    rw [hlen]; simp [padChannel_length, Nat.mul_assoc]
  have e2 : (cartProd [padChannel c2, padChannel c3, padChannel c4, padChannel c5]).length
      = cnt c2 * (cnt c3 * (cnt c4 * cnt c5)) := by
    rw [hlen]; simp [padChannel_length, Nat.mul_assoc]
  have e1 : (cartProd [padChannel c1, padChannel c2, padChannel c3, padChannel c4,
      padChannel c5]).length
      = cnt c1 * (cnt c2 * (cnt c3 * (cnt c4 * cnt c5))) := by
    rw [hlen]; simp [padChannel_length, Nat.mul_assoc]
  refine ⟨?_, ?_, ?_⟩
  · rw [buildMixbinCombos, List.length_map]
    simpa using e1
  · intro row hrow
    rw [buildMixbinCombos, List.mem_map] at hrow
    obtain ⟨ys, hys, rfl⟩ := hrow
    have hf := mem_cartProd_forall _ ys hys
    simp only [List.map_cons, List.map_nil] at hf
    rcases hf with _ | ⟨hy1, hf⟩
    rcases hf with _ | ⟨hy2, hf⟩
    rcases hf with _ | ⟨hy3, hf⟩
    rcases hf with _ | ⟨hy4, hf⟩
    rcases hf with _ | ⟨hy5, hf⟩
    rcases hf
    have l1 := padChannel_row_length c1 (fun r hr => h4 r (Or.inl hr)) _ hy1
    have l2 := padChannel_row_length c2 (fun r hr => h4 r (Or.inr (Or.inl hr))) _ hy2
    have l3 := padChannel_row_length c3 (fun r hr => h4 r (Or.inr (Or.inr (Or.inl hr)))) _ hy3
    have l4 := padChannel_row_length c4
      (fun r hr => h4 r (Or.inr (Or.inr (Or.inr (Or.inl hr))))) _ hy4
    have l5 := padChannel_row_length c5
      (fun r hr => h4 r (Or.inr (Or.inr (Or.inr (Or.inr hr))))) _ hy5
    simp [l1, l2, l3, l4, l5]
  · intro m hm
    have h5pos : 0 < cnt c5 := cnt_pos c5
    have hCpos : 0 < cnt c4 * cnt c5 := Nat.mul_pos (cnt_pos c4) h5pos
    have hBpos : 0 < cnt c3 * (cnt c4 * cnt c5) := Nat.mul_pos (cnt_pos c3) hCpos
    have hApos : 0 < cnt c2 * (cnt c3 * (cnt c4 * cnt c5)) := Nat.mul_pos (cnt_pos c2) hBpos
    have hmTot : m < (cartProd [padChannel c1, padChannel c2, padChannel c3, padChannel c4,
        padChannel c5]).length := by rw [e1]; exact hm
    have hstep0 : (buildMixbinCombos [c1, c2, c3, c4, c5]).getD m []
        = List.flatten ((cartProd [padChannel c1, padChannel c2, padChannel c3, padChannel c4,
            padChannel c5]).getD m []) := by
      rw [buildMixbinCombos]
      simp only [List.map_cons, List.map_nil]
      exact getD_map_flatten _ m hmTot
    have hstep1 := cartProd_getD ([] : List ℚ) (padChannel c1)
      [padChannel c2, padChannel c3, padChannel c4, padChannel c5] m
      (by rw [padChannel_length, e2]; exact hm)
    rw [e2] at hstep1
    have hstep2 := cartProd_getD ([] : List ℚ) (padChannel c2)
      [padChannel c3, padChannel c4, padChannel c5]
      (m % (cnt c2 * (cnt c3 * (cnt c4 * cnt c5))))
      (by rw [padChannel_length, e3]; exact Nat.mod_lt m hApos)
    rw [e3] at hstep2
    have hd2 : m % (cnt c2 * (cnt c3 * (cnt c4 * cnt c5))) / (cnt c3 * (cnt c4 * cnt c5))
        = m / (cnt c3 * (cnt c4 * cnt c5)) % cnt c2 := by
      have hq : cnt c2 * (cnt c3 * (cnt c4 * cnt c5))
          = cnt c3 * (cnt c4 * cnt c5) * cnt c2 := by ring
      rw [hq, Nat.mod_mul_right_div_self]
    have hr2 : m % (cnt c2 * (cnt c3 * (cnt c4 * cnt c5))) % (cnt c3 * (cnt c4 * cnt c5))
        = m % (cnt c3 * (cnt c4 * cnt c5)) :=
      Nat.mod_mod_of_dvd m ⟨cnt c2, by ring⟩
    have hstep3 := cartProd_getD ([] : List ℚ) (padChannel c3)
      [padChannel c4, padChannel c5] (m % (cnt c3 * (cnt c4 * cnt c5)))
      (by rw [padChannel_length, e4]; exact Nat.mod_lt m hBpos)
    rw [e4] at hstep3
    have hd3 : m % (cnt c3 * (cnt c4 * cnt c5)) / (cnt c4 * cnt c5)
        = m / (cnt c4 * cnt c5) % cnt c3 := by
      have hq : cnt c3 * (cnt c4 * cnt c5) = cnt c4 * cnt c5 * cnt c3 := by ring
      rw [hq, Nat.mod_mul_right_div_self]
    have hr3 : m % (cnt c3 * (cnt c4 * cnt c5)) % (cnt c4 * cnt c5)
        = m % (cnt c4 * cnt c5) :=
      Nat.mod_mod_of_dvd m ⟨cnt c3, by ring⟩
    have hstep4 := cartProd_getD ([] : List ℚ) (padChannel c4)
      [padChannel c5] (m % (cnt c4 * cnt c5))
      (by rw [padChannel_length, e5]; exact Nat.mod_lt m hCpos)
    rw [e5] at hstep4
    have hd4 : m % (cnt c4 * cnt c5) / cnt c5 = m / cnt c5 % cnt c4 := by
      have hq : cnt c4 * cnt c5 = cnt c5 * cnt c4 := by ring
      rw [hq, Nat.mod_mul_right_div_self]
    have hr4 : m % (cnt c4 * cnt c5) % cnt c5 = m % cnt c5 :=
      Nat.mod_mod_of_dvd m ⟨cnt c4, by ring⟩
    have hstep5 := cartProd_getD ([] : List ℚ) (padChannel c5) [] (m % cnt c5)
      (by
        rw [padChannel_length]
        simpa [cartProd] using Nat.mod_lt m h5pos)
    simp only [show cartProd ([] : List (List (List ℚ))) = [[]] from rfl,
      List.length_cons, List.length_nil, Nat.div_one, Nat.mod_one,
      List.getD_cons_zero] at hstep5
    rw [hstep0, hstep1, hstep2, hd2, hr2, hstep3, hd3, hr3, hstep4, hd4, hr4, hstep5]
    simp [List.flatten]

/-- C3 witness: a concrete instance with channel counts 2,1,0,1,1; the empty
channel contributes its placeholder, the count is 2·1·1·1·1 = 2, and row 1
(last channel varying fastest) is the concatenation picking the second row of
channel 1. -/
theorem mixbin_combos_spec_witness :
    (buildMixbinCombos [[[1, 2, 3, 4], [5, 6, 7, 8]], [[9, 10, 11, 12]], [],
        [[13, 14, 15, 16]], [[17, 18, 19, 20]]]).length = 2
    ∧ (buildMixbinCombos [[[1, 2, 3, 4], [5, 6, 7, 8]], [[9, 10, 11, 12]], [],
        [[13, 14, 15, 16]], [[17, 18, 19, 20]]]).getD 1 []
      = [5, 6, 7, 8, 9, 10, 11, 12, 0, 0, 0, 0, 13, 14, 15, 16, 17, 18, 19, 20] := by
  have h := mixbin_combos_spec [[1, 2, 3, 4], [5, 6, 7, 8]] [[9, 10, 11, 12]] []
    [[13, 14, 15, 16]] [[17, 18, 19, 20]] (by
      intro r hr
      rcases hr with h | h | h | h | h
      · rcases List.mem_cons.mp h with rfl | h2
        · rfl
        · rcases List.mem_singleton.mp h2 with rfl; rfl
      · rcases List.mem_singleton.mp h with rfl; rfl
      · exact absurd h (List.not_mem_nil r)
      · rcases List.mem_singleton.mp h with rfl; rfl
      · rcases List.mem_singleton.mp h with rfl; rfl)
  constructor
  · have h1 := h.1
    simpa [cnt] using h1
  · have h3 := h.2.2 1 (by simp [cnt])
    rw [h3]
    decide

/-- C4 counterexample: a channel file whose first 6 rows all have a non-zero
entry among their first 4 columns yields only 5 candidate rows (the source
reads just the first 5 rows), so five such channels produce 5^5 = 3125
combinations, not 6^5 = 7776. -/
theorem mixbin_six_rows_counterexample :
    (collectCandidates (List.replicate 6 [1, 0, 0, 0])).length = 5
    ∧ (collectCandidates (List.replicate 6 [1, 0, 0, 0])).length ≠ 6
    ∧ (buildMixbinCombos (List.replicate 5
        (collectCandidates (List.replicate 6 [1, 0, 0, 0])))).length = 3125
    ∧ (3125 : ℕ) ≠ 7776 := by
  have h5 : (collectCandidates (List.replicate 6 [1, 0, 0, 0])).length = 5 := by decide
  refine ⟨h5, by omega, ?_, by omega⟩
  rw [buildMixbinCombos, List.length_map, cartProd_length, List.map_replicate,
    List.map_replicate, List.prod_replicate, padChannel_length]
  have hc : cnt (collectCandidates (List.replicate 6 [1, 0, 0, 0])) = 5 := by
    rw [cnt, h5]; norm_num
  rw [hc]; norm_num

/-- C4 amended: each channel contributes at most 5 candidate rows (only the
first 5 rows of the channel input are read), so the Cartesian product over 5
channels has at most 5^5 = 3125 combinations; the bound 3125 is attained by a
channel input whose first 5 rows are all non-zero. -/
theorem mixbin_candidates_at_most_five :
    (∀ rows : List (List ℚ), (collectCandidates rows).length ≤ 5)
    ∧ (∀ d1 d2 d3 d4 d5 : List (List ℚ),
        (buildMixbinCombos [collectCandidates d1, collectCandidates d2, collectCandidates d3,
          collectCandidates d4, collectCandidates d5]).length ≤ 3125)
    ∧ (buildMixbinCombos (List.replicate 5
        (collectCandidates (List.replicate 6 [(1 : ℚ), 0, 0, 0])))).length = 3125 := by
  have hle : ∀ rows : List (List ℚ), (collectCandidates rows).length ≤ 5 := by
    intro rows
    calc (collectCandidates rows).length
        ≤ (readFirst5Rows rows).length := List.length_filter_le _ _
      _ = (rows.take 5).length := by rw [readFirst5Rows, List.length_map]
      _ ≤ 5 := by simp
  have hcnt : ∀ rows : List (List ℚ), cnt (collectCandidates rows) ≤ 5 := by
    intro rows
    rw [cnt]
    split
    · omega
    · exact hle rows
  refine ⟨hle, ?_, ?_⟩
  · intro d1 d2 d3 d4 d5
    rw [buildMixbinCombos, List.length_map, cartProd_length]
    simp only [List.map_cons, List.map_nil, List.prod_cons, List.prod_nil,
      padChannel_length, Nat.mul_one]
    calc cnt (collectCandidates d1) * (cnt (collectCandidates d2) * (cnt (collectCandidates d3)
          * (cnt (collectCandidates d4) * cnt (collectCandidates d5))))
        ≤ 5 * (5 * (5 * (5 * 5))) := by
          exact Nat.mul_le_mul (hcnt d1) (Nat.mul_le_mul (hcnt d2) (Nat.mul_le_mul (hcnt d3)
            (Nat.mul_le_mul (hcnt d4) (hcnt d5))))
      _ = 3125 := by norm_num
  · have h5 : (collectCandidates (List.replicate 6 [(1 : ℚ), 0, 0, 0])).length = 5 := by decide
    rw [buildMixbinCombos, List.length_map, cartProd_length, List.map_replicate,
      List.map_replicate, List.prod_replicate, padChannel_length]
    have hc : cnt (collectCandidates (List.replicate 6 [(1 : ℚ), 0, 0, 0])) = 5 := by
      rw [cnt, h5]; norm_num
    rw [hc]; norm_num

/-! ### Theorems on step4_mixbin_calc_3.py : per-group normalization and output formatting -/

theorem roundHalfEven_err (q : ℚ) : |(roundHalfEven q : ℚ) - q| ≤ 1 / 2 := by
  have h0 : (⌊q⌋ : ℚ) ≤ q := Int.floor_le q
  have h1 : q < (⌊q⌋ : ℚ) + 1 := Int.lt_floor_add_one q
  unfold roundHalfEven
  split
  · rw [abs_sub_comm, abs_of_nonneg (by linarith)]
    linarith
  · split
    · push_cast
      rw [abs_of_nonneg (by linarith)]
      linarith
    · split
      · rw [abs_sub_comm, abs_of_nonneg (by linarith)]
        linarith
      · push_cast
        rw [abs_of_nonneg (by linarith)]
        linarith

theorem round6_err (q : ℚ) : |round6 q - q| ≤ 1 / 2000000 := by
  have h := roundHalfEven_err (q * 1000000)
  rw [round6]
  have hrw : (roundHalfEven (q * 1000000) : ℚ) / 1000000 - q
      = ((roundHalfEven (q * 1000000) : ℚ) - q * 1000000) / 1000000 := by ring
  rw [hrw, abs_div, abs_of_pos (by norm_num : (0:ℚ) < 1000000)]
  rw [div_le_div_iff (by norm_num) (by norm_num)]
  nlinarith [abs_nonneg ((roundHalfEven (q * 1000000) : ℚ) - q * 1000000)]

theorem round6_zero : round6 0 = 0 := by
  rw [round6, roundHalfEven]
  norm_num

theorem fmtVal_zero : fmtVal 0 = 0 := by
  rw [fmtVal]
  rw [if_pos (by norm_num)]
  exact round6_zero

theorem fmtVal_err (x : ℚ) : |fmtVal x - x| ≤ 1 / 2000000 := by
  rw [fmtVal]
  split
  · rw [round6_zero]
    rw [abs_sub_comm]
    simp only [sub_zero]
    calc |x| ≤ 1 / 10 ^ 15 := le_of_lt (by assumption)
      _ ≤ 1 / 2000000 := by norm_num
  · exact round6_err x

theorem sum_map_div (l : List ℚ) (s : ℚ) : (l.map (fun v => v / s)).sum = l.sum / s := by
  induction l with
  | nil => simp
  | cons a l ih => simp [ih, add_div]

theorem normGroup_sum (g : List ℚ) :
    normGroup g = [0, 0, 0, 0] ∨ (normGroup g).sum = 1 := by
  unfold normGroup
  split
  · right
    rw [sum_map_div, div_self (ne_of_gt (by assumption))]
  · left
    rfl

theorem normGroup_idem (g : List ℚ) : normGroup (normGroup g) = normGroup g := by
  by_cases h : 0 < g.sum
  · have h1 : normGroup g = g.map (fun v => v / g.sum) := by rw [normGroup, if_pos h]
    have h2 : (normGroup g).sum = 1 := by
      rw [h1, sum_map_div, div_self (ne_of_gt h)]
    rw [normGroup, if_pos (h2 ▸ one_pos), h2]
    simp
  · have h1 : normGroup g = [0, 0, 0, 0] := by rw [normGroup, if_neg h]
    rw [h1]
    rw [show normGroup [0, 0, 0, 0] = [0, 0, 0, 0] by rw [normGroup]; norm_num]

theorem normGroup_length (g : List ℚ) (h : g.length = 4) : (normGroup g).length = 4 := by
  unfold normGroup
  split <;> simp [h]

theorem padTo20_length (row : List ℚ) : (padTo20 row).length = 20 := by
  rw [padTo20]
  simp only [List.length_append, List.length_take, List.length_replicate]
  omega

theorem padTo20_of_len20 (row : List ℚ) (h : row.length = 20) : padTo20 row = row := by
  rw [padTo20, h]
  simp [List.take_of_length_le (le_of_eq h)]

theorem group4_length (vals : List ℚ) (g : ℕ) (hv : vals.length = 20) (hg : g < 5) :
    (group4 vals g).length = 4 := by
  rw [group4]
  simp only [List.length_take, List.length_drop, hv]
  omega

theorem group4_map (f : ℚ → ℚ) (vals : List ℚ) (g : ℕ) :
    group4 (vals.map f) g = (group4 vals g).map f := by
  rw [group4, group4, List.map_take, List.map_drop]

theorem group4_flatten (ls : List (List ℚ)) (g : ℕ)
    (h4 : ∀ l ∈ ls, l.length = 4) (hg : g < ls.length) :
    group4 ls.flatten g = ls.getD g [] := by
  induction ls generalizing g with
  | nil => simp at hg
  | cons l ls ih =>
    have hl : l.length = 4 := h4 l (List.mem_cons_self l ls)
    rcases g with _ | g
    · rw [group4, Nat.mul_zero, List.drop_zero, List.flatten_cons]
      rw [show (4 : ℕ) = l.length from hl.symm, List.take_left]
      simp
    · rw [group4, List.flatten_cons]
      have hsplit : 4 * (g + 1) = l.length + 4 * g := by omega
      rw [hsplit, List.drop_append]
      rw [List.getD_cons_succ]
      exact ih g (fun x hx => h4 x (List.mem_cons_of_mem l hx)) (by simpa using hg)

theorem normalizeRow_groups (row : List ℚ) (g : ℕ) (hg : g < 5) :
    group4 (normalizeRow row) g = normGroup (group4 (padTo20 row) g) := by
  rw [normalizeRow]
  rw [group4_flatten]
  · have hg' : g < (List.range 5).length := by simpa using hg
    rw [List.getD_eq_getElem _ _ (by simpa using hg), List.getElem_map, List.getElem_range]
  · intro l hl
    rw [List.mem_map] at hl
    obtain ⟨i, hi, rfl⟩ := hl
    rw [List.mem_range] at hi
    exact normGroup_length _ (group4_length _ _ (padTo20_length row) hi)
  · simpa using hg

theorem normalizeRow_length (row : List ℚ) : (normalizeRow row).length = 20 := by
  rw [normalizeRow, List.length_flatten, List.map_map]
  have hcongr : List.map (List.length ∘ fun g => normGroup (group4 (padTo20 row) g))
      (List.range 5) = List.map (fun _ => 4) (List.range 5) := by
    apply List.map_congr_left
    intro i hi
    rw [List.mem_range] at hi
    exact normGroup_length _ (group4_length _ _ (padTo20_length row) hi)
  rw [hcongr]
  simp

theorem list_len4 {l : List ℚ} (h : l.length = 4) : ∃ a b c d : ℚ, l = [a, b, c, d] := by
  rcases l with _ | ⟨a, _ | ⟨b, _ | ⟨c, _ | ⟨d, _ | ⟨e, t⟩⟩⟩⟩⟩ <;> simp at h
  exact ⟨a, b, c, d, rfl⟩

/-- C8 amended: per-row group normalization is exactly idempotent (hence
idempotent within 1e-9), and every non-zero normalized group sums to exactly 1
before formatting; after the 6-decimal output rounding of `_fmt` every
non-zero group sums to 1.0 within 2e-6 (four roundings of at most 5e-7 each) -
the 1e-6 bound of the claim is not guaranteed. -/
theorem normalize_idem_and_sums :
    (∀ row : List ℚ, normalizeRow (normalizeRow row) = normalizeRow row)
    ∧ (∀ row : List ℚ, ∀ g < 5,
        group4 (normalizeRow row) g = [0, 0, 0, 0] ∨ (group4 (normalizeRow row) g).sum = 1)
    ∧ (∀ row : List ℚ, ∀ g < 5,
        group4 (buildMixbinPercentRow row) g = [0, 0, 0, 0]
        ∨ |(group4 (buildMixbinPercentRow row) g).sum - 1| ≤ 2 / 1000000) := by
  refine ⟨?_, ?_, ?_⟩
  · intro row
    conv_lhs => rw [normalizeRow, padTo20_of_len20 _ (normalizeRow_length row)]
    conv_rhs => rw [normalizeRow]
    congr 1
    apply List.map_congr_left
    intro g hg
    rw [List.mem_range] at hg
    rw [normalizeRow_groups row g hg, normGroup_idem]
  · intro row g hg
    rw [normalizeRow_groups row g hg]
    exact normGroup_sum _
  · intro row g hg
    rcases normGroup_sum (group4 (padTo20 row) g) with hz | hs
    · left
      rw [buildMixbinPercentRow, group4_map, normalizeRow_groups row g hg, hz]
      simp [fmtVal_zero]
    · right
      have hlen : (group4 (normalizeRow row) g).length = 4 := by
        rw [normalizeRow_groups row g hg]
        exact normGroup_length _ (group4_length _ _ (padTo20_length row) hg)
      have hsum : (group4 (normalizeRow row) g).sum = 1 := by
        rw [normalizeRow_groups row g hg]
        exact hs
      obtain ⟨a, b, c, d, habcd⟩ := list_len4 hlen
      rw [buildMixbinPercentRow, group4_map, habcd]
      rw [habcd] at hsum
      simp only [List.sum_cons, List.sum_nil, add_zero] at hsum
      have ea := abs_le.mp (fmtVal_err a)
      have eb := abs_le.mp (fmtVal_err b)
      have ec := abs_le.mp (fmtVal_err c)
      have ed := abs_le.mp (fmtVal_err d)
      simp only [List.map_cons, List.map_nil, List.sum_cons, List.sum_nil, add_zero]
      rw [abs_le]
      constructor <;> linarith

/-- C8 witness: the idempotence and sum facts instantiated on the concrete
row (1,2,3,4) at group 0. -/
theorem normalize_idem_and_sums_witness :
    normalizeRow (normalizeRow [1, 2, 3, 4]) = normalizeRow [1, 2, 3, 4]
    ∧ (group4 (normalizeRow [1, 2, 3, 4]) 0 = [0, 0, 0, 0]
        ∨ (group4 (normalizeRow [1, 2, 3, 4]) 0).sum = 1)
    ∧ (group4 (buildMixbinPercentRow [1, 2, 3, 4]) 0 = [0, 0, 0, 0]
        ∨ |(group4 (buildMixbinPercentRow [1, 2, 3, 4]) 0).sum - 1| ≤ 2 / 1000000) :=
  ⟨normalize_idem_and_sums.1 [1, 2, 3, 4],
    normalize_idem_and_sums.2.1 [1, 2, 3, 4] 0 (by norm_num),
    normalize_idem_and_sums.2.2 [1, 2, 3, 4] 0 (by norm_num)⟩

/-- C8 counterexample: for the input row with group (1,1,1,125) the normalized
group is (1/128, 1/128, 1/128, 125/128); each component lies exactly on a
6-decimal half and ties-to-even rounds each one down, so the formatted group
sums to 0.999998, missing 1.0 by exactly 2e-6 > 1e-6. -/
theorem normalize_roundtrip_counterexample :
    group4 (buildMixbinPercentRow [1, 1, 1, 125]) 0 ≠ [0, 0, 0, 0]
    ∧ (group4 (buildMixbinPercentRow [1, 1, 1, 125]) 0).sum = 999998 / 1000000
    ∧ 1 / 1000000 < |(group4 (buildMixbinPercentRow [1, 1, 1, 125]) 0).sum - 1| := by
  have hgrp : group4 (padTo20 [1, 1, 1, 125]) 0 = [1, 1, 1, 125] := by
    rw [padTo20]
    norm_num [group4]
  have hnorm : group4 (normalizeRow [1, 1, 1, 125]) 0
      = [1 / 128, 1 / 128, 1 / 128, 125 / 128] := by
    rw [normalizeRow_groups _ 0 (by norm_num), hgrp, normGroup,
      if_pos (by norm_num : (0:ℚ) < ([1, 1, 1, 125] : List ℚ).sum)]
    norm_num
  have hfmt1 : fmtVal (1 / 128) = 7812 / 1000000 := by
    rw [fmtVal, if_neg (by
      rw [show |(1:ℚ)/128| = 1/128 from abs_of_pos (by norm_num)]
      norm_num), round6]
    have hq : (1 : ℚ) / 128 * 1000000 = 15625 / 2 := by norm_num
    rw [hq, roundHalfEven]
    have hfl : ⌊(15625 : ℚ) / 2⌋ = 7812 := by norm_num
    rw [hfl]
    norm_num
  have hfmt125 : fmtVal (125 / 128) = 976562 / 1000000 := by
    rw [fmtVal, if_neg (by
      rw [show |(125:ℚ)/128| = 125/128 from abs_of_pos (by norm_num)]
      norm_num), round6]
    have hq : (125 : ℚ) / 128 * 1000000 = 1953125 / 2 := by norm_num
    rw [hq, roundHalfEven]
    have hfl : ⌊(1953125 : ℚ) / 2⌋ = 976562 := by norm_num
    rw [hfl]
    norm_num
  have hout : group4 (buildMixbinPercentRow [1, 1, 1, 125]) 0
      = [7812 / 1000000, 7812 / 1000000, 7812 / 1000000, 976562 / 1000000] := by
    rw [buildMixbinPercentRow, group4_map, hnorm]
    simp only [List.map_cons, List.map_nil, hfmt1, hfmt125]
  rw [hout]
  refine ⟨by norm_num, by norm_num, ?_⟩
  have hsum : ([7812 / 1000000, 7812 / 1000000, 7812 / 1000000,
      (976562 : ℚ) / 1000000]).sum = 999998 / 1000000 := by norm_num
  rw [hsum, show (999998 : ℚ) / 1000000 - 1 = -(2 / 1000000) by norm_num, abs_neg,
    abs_of_pos (by norm_num : (0:ℚ) < 2 / 1000000)]
  norm_num

/-- C10: in `build_mixbin_percentages` the division branch is guarded by a
strictly-positive sum test: a 4-column group whose sum is zero or negative is
replaced by exactly (0,0,0,0) in the normalized row and in the formatted
output row, so no division by a zero or a negative group sum is ever
performed. -/
theorem normalize_nonpositive_guard (row : List ℚ) (g : ℕ) (hg : g < 5)
    (hs : (group4 (padTo20 row) g).sum ≤ 0) :
    group4 (normalizeRow row) g = [0, 0, 0, 0]
    ∧ group4 (buildMixbinPercentRow row) g = [0, 0, 0, 0] := by
  have h1 : group4 (normalizeRow row) g = [0, 0, 0, 0] := by
    rw [normalizeRow_groups row g hg, normGroup, if_neg (not_lt.mpr hs)]
  refine ⟨h1, ?_⟩
  rw [buildMixbinPercentRow, group4_map, h1]
  simp [fmtVal_zero]

/-- C10 witness: the row whose first group is (1,-1,0,0) has group sum 0; the
guard applies and the output group is exactly (0,0,0,0). -/
theorem normalize_nonpositive_guard_witness :
    (0 : ℕ) < 5 ∧ (group4 (padTo20 [1, -1, 0, 0]) 0).sum ≤ 0
    ∧ group4 (normalizeRow [1, -1, 0, 0]) 0 = [0, 0, 0, 0]
    ∧ group4 (buildMixbinPercentRow [1, -1, 0, 0]) 0 = [0, 0, 0, 0] := by
  have hs : (group4 (padTo20 [1, -1, 0, 0]) 0).sum ≤ 0 := by
    rw [padTo20]
    norm_num [group4]
  have h := normalize_nonpositive_guard [1, -1, 0, 0] 0 (by norm_num) hs
  exact ⟨by norm_num, hs, h.1, h.2⟩

/-! ### Theorems on step3_bin_process.py : bin partitioner -/

theorem binActive_iff (nodes : List ℚ) (b : ℕ) :
    binActive nodes b = true
      ↔ nodes.getD b 0 ≠ 0 ∧ nodes.getD (b + 1) 0 ≠ 0
        ∧ nodes.getD b 0 < nodes.getD (b + 1) 0 := by
  simp [binActive]

theorem inBinMask_iff (lo hi v : ℚ) :
    inBinMask lo hi v = true ↔ lo - binTol < v ∧ v ≤ hi + binTol := by
  simp [inBinMask]

theorem cutIntoBins_getD (pop nodes : List ℚ) (b : ℕ) (hb : b < 4) :
    (cutIntoBins pop nodes).getD b []
      = if binActive nodes b
        then pop.filter (fun v => inBinMask (nodes.getD b 0) (nodes.getD (b + 1) 0) v)
        else [] := by
  rw [cutIntoBins, List.getD_eq_getElem _ _ (by simpa using hb), List.getElem_map,
    List.getElem_range]

theorem cutIntoBins_mem (pop nodes : List ℚ) (b : ℕ) (hb : b < 4) (v : ℚ) :
    v ∈ (cutIntoBins pop nodes).getD b []
      ↔ binActive nodes b = true ∧ v ∈ pop
        ∧ inBinMask (nodes.getD b 0) (nodes.getD (b + 1) 0) v = true := by
  rw [cutIntoBins_getD pop nodes b hb]
  split
  · rw [List.mem_filter]
    constructor
    · rintro ⟨h1, h2⟩
      exact ⟨by assumption, h1, h2⟩
    · rintro ⟨_, h1, h2⟩
      exact ⟨h1, h2⟩
  · simp only [List.not_mem_nil, false_iff]
    rintro ⟨hact, -, -⟩
    exact absurd hact (by assumption)

/-- C5 amended: for a monotonic bin node set (non-zero subsequence strictly
increasing), every population element farther than the 1e-10 tolerance from
every node value lies in at most one active bin, and every element is either
in some active bin or reported unassigned. An element within the tolerance of
an interior boundary shared by two adjacent active bins is counted in both
bins (see the counterexample), not only in the lower one. -/
theorem bins_disjoint_away_from_nodes (nodes : List ℚ)
    (hmono : ∀ j < 5, ∀ i < j, nodes.getD i 0 ≠ 0 → nodes.getD j 0 ≠ 0 →
      nodes.getD i 0 < nodes.getD j 0)
    (pop : List ℚ) (v : ℚ)
    (hfar : ∀ i < 5, binTol < |v - nodes.getD i 0|) :
    (∀ b1 b2, b1 < b2 → b2 < 4 →
      v ∈ (cutIntoBins pop nodes).getD b1 [] →
      v ∈ (cutIntoBins pop nodes).getD b2 [] → False)
    ∧ (∀ w ∈ pop, (∃ b, b < 4 ∧ w ∈ (cutIntoBins pop nodes).getD b [])
        ∨ w ∈ unassignedData pop nodes) := by
  constructor
  · intro b1 b2 h12 hb2 hv1 hv2
    obtain ⟨hact1, -, hm1⟩ := (cutIntoBins_mem pop nodes b1 (by omega) v).mp hv1
    obtain ⟨hact2, -, hm2⟩ := (cutIntoBins_mem pop nodes b2 hb2 v).mp hv2
    obtain ⟨-, hup1, -⟩ := (binActive_iff nodes b1).mp hact1
    obtain ⟨hlo2, -, -⟩ := (binActive_iff nodes b2).mp hact2
    obtain ⟨-, hv_le⟩ := (inBinMask_iff _ _ v).mp hm1
    obtain ⟨hv_gt, -⟩ := (inBinMask_iff _ _ v).mp hm2
    have hle : nodes.getD (b1 + 1) 0 ≤ nodes.getD b2 0 := by
      rcases Nat.lt_or_ge (b1 + 1) b2 with hlt | hge
      · exact le_of_lt (hmono b2 (by omega) (b1 + 1) hlt hup1 hlo2)
      · have : b1 + 1 = b2 := by omega
        rw [this]
    have habs : |v - nodes.getD b2 0| ≤ binTol := by
      rw [abs_le]
      constructor <;> linarith
    exact absurd habs (not_le.mpr (hfar b2 (by omega)))
  · intro w hw
    by_cases h : ∃ b, b < 4 ∧ binActive nodes b = true
        ∧ inBinMask (nodes.getD b 0) (nodes.getD (b + 1) 0) w = true
    · left
      obtain ⟨b, hb, hact, hm⟩ := h
      exact ⟨b, hb, (cutIntoBins_mem pop nodes b hb w).mpr ⟨hact, hw, hm⟩⟩
    · right
      rw [unassignedData, List.mem_filter]
      refine ⟨hw, ?_⟩
      push_neg at h
      simp only [Bool.not_eq_true', List.any_eq_false]
      intro b hb
      rw [List.mem_range] at hb
      rcases hact : binActive nodes b with _ | _
      · simp
      · rcases hm : inBinMask (nodes.getD b 0) (nodes.getD (b + 1) 0) w with _ | _
        · simp
        · exact absurd hm (by simpa using h b hb hact)

/-- C5 witness: nodes (1,2,3,0,0) satisfy the monotonicity hypothesis and the
element 3/2 is farther than the tolerance from every node, so it lies in at
most one bin and every population element is binned or reported unassigned. -/
theorem bins_disjoint_away_from_nodes_witness :
    (∀ b1 b2, b1 < b2 → b2 < 4 →
      (3 / 2 : ℚ) ∈ (cutIntoBins [3 / 2] [1, 2, 3, 0, 0]).getD b1 [] →
      (3 / 2 : ℚ) ∈ (cutIntoBins [3 / 2] [1, 2, 3, 0, 0]).getD b2 [] → False)
    ∧ (∀ w ∈ ([3 / 2] : List ℚ),
        (∃ b, b < 4 ∧ w ∈ (cutIntoBins [3 / 2] [1, 2, 3, 0, 0]).getD b [])
        ∨ w ∈ unassignedData [3 / 2] [1, 2, 3, 0, 0]) := by
  apply bins_disjoint_away_from_nodes [1, 2, 3, 0, 0]
  · intro j hj i hi hi0 hj0
    interval_cases j <;> interval_cases i <;> simp_all <;> norm_num
  · intro i hi
    interval_cases i <;>
      simp only [List.getD_cons_zero, List.getD_cons_succ, binTol] <;>
      rw [lt_abs] <;> norm_num

/-- C5 counterexample: the valid node set (1,2,3,0,0) defines the adjacent
active bins (1,2] and (2,3]; the element exactly at the shared boundary 2
is placed in BOTH bins by the tolerance comparisons of `_cut_into_bins`
(`2 ≤ 2 + 1e-10` and `2 > 2 - 1e-10`), contradicting the claim that it
belongs only to the lower bin. -/
theorem bins_shared_boundary_counterexample :
    (∀ j < 5, ∀ i < j, ([1, 2, 3, 0, 0] : List ℚ).getD i 0 ≠ 0 →
      ([1, 2, 3, 0, 0] : List ℚ).getD j 0 ≠ 0 →
      ([1, 2, 3, 0, 0] : List ℚ).getD i 0 < ([1, 2, 3, 0, 0] : List ℚ).getD j 0)
    ∧ (2 : ℚ) ∈ (cutIntoBins [2] [1, 2, 3, 0, 0]).getD 0 []
    ∧ (2 : ℚ) ∈ (cutIntoBins [2] [1, 2, 3, 0, 0]).getD 1 [] := by
  refine ⟨?_, ?_, ?_⟩
  · intro j hj i hi hi0 hj0
    interval_cases j <;> interval_cases i <;> simp_all <;> norm_num
  · rw [cutIntoBins_mem _ _ 0 (by norm_num)]
    refine ⟨?_, by norm_num, ?_⟩
    · rw [binActive_iff]
      norm_num
    · rw [inBinMask_iff, binTol]
      norm_num
  · rw [cutIntoBins_mem _ _ 1 (by norm_num)]
    refine ⟨?_, by norm_num, ?_⟩
    · rw [binActive_iff]
      norm_num
    · rw [inBinMask_iff, binTol]
      norm_num

/-! ### Theorems on step7_final_calculation.py : Monte Carlo input loading -/

/-- C6 counterexample: with the combination file present but ALL 20
adjusted-population files missing, the run does not fail fast; each missing
population is silently replaced by the default population [0] and the
simulation proceeds. -/
theorem monte_carlo_missing_population_counterexample :
    (List.replicate 20 (none : Option (List ℚ))).all Option.isNone = true
    ∧ monteCarloPreflight (some [[1]]) (List.replicate 20 none)
        = Except.ok ([[1]], List.replicate 20 [0]) := by
  constructor
  · decide
  · rw [monteCarloPreflight]
    norm_num [loadBinData, List.map_replicate, loadBinSlot]

/-- C6 amended: the combination-row file is fail-fast (missing or empty file
gives a descriptive error before any simulation), but a missing
adjusted-population input does NOT abort the run: its slot is silently
replaced by the default population [0] and the load succeeds. -/
theorem monte_carlo_preflight_spec :
    (∀ binFiles, monteCarloPreflight none binFiles = Except.error "combos file missing")
    ∧ (∀ rows binFiles, binFiles.length = 20 →
        rows.filter (fun r => !r.isEmpty) ≠ [] →
        monteCarloPreflight (some rows) binFiles
          = Except.ok (rows.filter (fun r => !r.isEmpty), binFiles.map loadBinSlot))
    ∧ loadBinSlot none = [0] := by
  refine ⟨fun _ => rfl, ?_, rfl⟩
  intro rows binFiles hlen hne
  rw [monteCarloPreflight]
  rw [if_neg (by simpa [List.isEmpty_iff] using hne)]
  rw [if_neg (by simp [loadBinData, hlen])]
  rfl

/-- C6 witness: concrete instantiation with one empty row filtered from the
combination table and all population files present. -/
theorem monte_carlo_preflight_spec_witness :
    monteCarloPreflight none (List.replicate 20 (some [5])) = Except.error "combos file missing"
    ∧ monteCarloPreflight (some [[2], []]) (List.replicate 20 (some [5]))
        = Except.ok ([[2]], List.replicate 20 [5]) := by
  constructor
  · exact monte_carlo_preflight_spec.1 _
  · have h := monte_carlo_preflight_spec.2.1 [[2], []] (List.replicate 20 (some [5]))
      (by simp) (by decide)
    rw [h]
    congr 1

/-! ### Theorems on step1_rawdata_analysis.py : shortest interval covering a target probability -/

theorem scanIdx_some (t : ℚ) (c : ℚ) (ps : List ℚ) (r : ℕ)
    (h : scanIdx t c ps = some r) :
    r < ps.length ∧ t ≤ c + (ps.take (r + 1)).sum + eps12
      ∧ ∀ r' < r, ¬ t ≤ c + (ps.take (r' + 1)).sum + eps12 := by
  induction ps generalizing c r with
  | nil => simp [scanIdx] at h
  | cons p ps ih =>
    rw [scanIdx] at h
    split at h
    · rcases Option.some_inj.mp h
      refine ⟨by simp, by simpa using (by assumption : t ≤ c + p + eps12), ?_⟩
      intro r' hr'
      omega
    · rw [Option.map_eq_some'] at h
      obtain ⟨r0, hr0, rfl⟩ := h
      obtain ⟨hlen, hsum, hmin⟩ := ih (c + p) r0 hr0
      refine ⟨by simpa using hlen, ?_, ?_⟩
      · rw [List.take_succ_cons, List.sum_cons]
        calc t ≤ c + p + (ps.take (r0 + 1)).sum + eps12 := by linarith
          _ = c + (p + (ps.take (r0 + 1)).sum) + eps12 := by ring
      · intro r' hr'
        rcases r' with _ | r''
        · simpa using (by assumption : ¬ t ≤ c + p + eps12)
        · have h2 := hmin r'' (by omega)
          rw [List.take_succ_cons, List.sum_cons]
          intro hcon
          exact h2 (by linarith)

theorem scanIdx_isSome (t : ℚ) (c : ℚ) (ps : List ℚ) (r : ℕ)
    (hr : r < ps.length) (h : t ≤ c + (ps.take (r + 1)).sum + eps12) :
    (scanIdx t c ps).isSome = true := by
  induction ps generalizing c r with
  | nil => simp at hr
  | cons p ps ih =>
    rw [scanIdx]
    split
    · rfl
    · rcases r with _ | r0
      · simp only [List.take_succ_cons, List.take_zero, List.sum_cons, List.sum_nil,
          add_zero] at h
        exact absurd h (by assumption)
      · have h' : t ≤ c + p + (ps.take (r0 + 1)).sum + eps12 := by
          rw [List.take_succ_cons, List.sum_cons] at h
          linarith
        have := ih (c + p) r0 (by simpa using hr) (by linarith)
        simpa using this

theorem firstJ_some (props : List ℚ) (t : ℚ) (i j : ℕ)
    (h : firstJ props t i = some j) :
    i ≤ j ∧ j < props.length ∧ t ≤ sumFromTo props i j + eps12
      ∧ ∀ j', i ≤ j' → j' < j → ¬ t ≤ sumFromTo props i j' + eps12 := by
  rw [firstJ, Option.map_eq_some'] at h
  obtain ⟨r, hr, rfl⟩ := h
  obtain ⟨hlen, hsum, hmin⟩ := scanIdx_some t 0 _ r hr
  rw [List.length_drop] at hlen
  refine ⟨by omega, by omega, ?_, ?_⟩
  · rw [sumFromTo]
    have : i + r - i + 1 = r + 1 := by omega
    rw [this]
    linarith
  · intro j' hij' hj'
    rw [sumFromTo]
    have : j' - i + 1 = (j' - i) + 1 := rfl
    rw [this]
    have h2 := hmin (j' - i) (by omega)
    intro hcon
    exact h2 (by linarith)

theorem firstJ_exists (props : List ℚ) (t : ℚ) (i j' : ℕ)
    (hij : i ≤ j') (hj : j' < props.length)
    (h : t ≤ sumFromTo props i j' + eps12) :
    ∃ j, firstJ props t i = some j ∧ j ≤ j' := by
  have hs : (scanIdx t 0 (props.drop i)).isSome = true := by
    apply scanIdx_isSome t 0 _ (j' - i)
    · rw [List.length_drop]; omega
    · rw [sumFromTo] at h
      have : j' - i + 1 = (j' - i) + 1 := rfl
      rw [this] at h
      linarith
  obtain ⟨r, hr⟩ := Option.isSome_iff_exists.mp hs
  refine ⟨i + r, by rw [firstJ, hr]; rfl, ?_⟩
  obtain ⟨hlen, hsum, hmin⟩ := scanIdx_some t 0 _ r hr
  by_contra hcon
  push_neg at hcon
  have h2 := hmin (j' - i) (by omega)
  rw [sumFromTo] at h
  have h3 : j' - i + 1 = (j' - i) + 1 := rfl
  rw [h3] at h
  exact h2 (by linarith)

theorem sorted_getD_mono (l : List ℚ) (hs : List.Sorted (· ≤ ·) l)
    (i j : ℕ) (hij : i ≤ j) (hj : j < l.length) : l.getD i 0 ≤ l.getD j 0 := by
  rcases Nat.eq_or_lt_of_le hij with rfl | hlt
  · exact le_refl _
  · have hi : i < l.length := lt_trans hlt hj
    rw [List.getD_eq_getElem _ _ hi, List.getD_eq_getElem _ _ hj]
    exact List.pairwise_iff_get.mp hs ⟨i, hi⟩ ⟨j, hj⟩ hlt

theorem sum_take_mono (l : List ℚ) (hp : ∀ p ∈ l, 0 ≤ p) (a b : ℕ) (hab : a ≤ b) :
    (l.take a).sum ≤ (l.take b).sum := by
  have hb : b = a + (b - a) := by omega
  rw [hb, List.take_add, List.sum_append]
  have : 0 ≤ ((l.drop a).take (b - a)).sum := by
    apply List.sum_nonneg
    intro p hpmem
    exact hp p (List.drop_subset a l (List.take_subset _ _ hpmem))
  linarith

theorem sumFromTo_mono (props : List ℚ) (hp : ∀ p ∈ props, 0 ≤ p)
    (i j j' : ℕ) (hjj : j ≤ j') :
    sumFromTo props i j ≤ sumFromTo props i j' := by
  rw [sumFromTo, sumFromTo]
  apply sum_take_mono
  · intro p hpmem
    exact hp p (List.drop_subset i props hpmem)
  · omega

/-- Loop invariant of the outer sweep of
`find_shortest_interval_covering_prob` after processing left indices
`0, …, m-1`. -/
theorem sweep_invariant (values props : List ℚ) (t : ℚ) (n : ℕ) (m : ℕ) :
    (((List.range m).foldl (sweepStep values props t) (none, 0, n - 1)).1 = none →
      (∀ i < m, firstJ props t i = none)
      ∧ ((List.range m).foldl (sweepStep values props t) (none, 0, n - 1)).2 = (0, n - 1))
    ∧ (∀ b, ((List.range m).foldl (sweepStep values props t) (none, 0, n - 1)).1 = some b →
      firstJ props t
          ((List.range m).foldl (sweepStep values props t) (none, 0, n - 1)).2.1
        = some ((List.range m).foldl (sweepStep values props t) (none, 0, n - 1)).2.2
      ∧ b = values.getD ((List.range m).foldl (sweepStep values props t) (none, 0, n - 1)).2.2 0
            - values.getD ((List.range m).foldl (sweepStep values props t) (none, 0, n - 1)).2.1 0
      ∧ ((List.range m).foldl (sweepStep values props t) (none, 0, n - 1)).2.1 < m
      ∧ (∀ i j, i < m → firstJ props t i = some j →
          b ≤ values.getD j 0 - values.getD i 0)
      ∧ (∀ i j, i < ((List.range m).foldl (sweepStep values props t) (none, 0, n - 1)).2.1 →
          firstJ props t i = some j →
          b < values.getD j 0 - values.getD i 0)) := by
  induction m with
  | zero =>
    constructor
    · intro _
      exact ⟨fun i hi => absurd hi (Nat.not_lt_zero i), rfl⟩
    · intro b hb
      simp at hb
  | succ m ih =>
    rw [List.range_succ, List.foldl_append, List.foldl_cons, List.foldl_nil]
    set st := (List.range m).foldl (sweepStep values props t) (none, 0, n - 1) with hst
    obtain ⟨ihnone, ihsome⟩ := ih
    rcases hfj : firstJ props t m with _ | j
    · have hstep : sweepStep values props t st m = st := by
        rw [sweepStep, hfj]
      rw [hstep]
      constructor
      · intro h1
        obtain ⟨hall, h2⟩ := ihnone h1
        refine ⟨?_, h2⟩
        intro i hi
        rcases Nat.lt_succ_iff_lt_or_eq.mp hi with hlt | rfl
        · exact hall i hlt
        · exact hfj
      · intro b hb
        obtain ⟨g1, g2, g3, g4, g5⟩ := ihsome b hb
        refine ⟨g1, g2, by omega, ?_, g5⟩
        intro i j hi hji
        rcases Nat.lt_succ_iff_lt_or_eq.mp hi with hlt | rfl
        · exact g4 i j hlt hji
        · rw [hfj] at hji
          exact absurd hji (by simp)
    · rcases hb1 : st.1 with _ | b
      · have hstep : sweepStep values props t st m
            = (some (values.getD j 0 - values.getD m 0), m, j) := by
          simp only [sweepStep, hfj, hb1]
        rw [hstep]
        obtain ⟨hall, -⟩ := ihnone hb1
        constructor
        · intro h1
          simp at h1
        · intro b' hb'
          have hb'' : values.getD j 0 - values.getD m 0 = b' := Option.some_inj.mp hb'
          refine ⟨hfj, hb''.symm, Nat.lt_succ_self m, ?_, ?_⟩
          · intro i j' hi hji
            rcases Nat.lt_succ_iff_lt_or_eq.mp hi with hlt | rfl
            · rw [hall i hlt] at hji
              exact absurd hji (by simp)
            · rw [hfj] at hji
              cases Option.some_inj.mp hji
              exact le_of_eq hb''.symm
          · intro i j' hi hji
            have hi' : i < m := hi
            rw [hall i hi'] at hji
            exact absurd hji (by simp)
      · obtain ⟨g1, g2, g3, g4, g5⟩ := ihsome b hb1
        by_cases hcmp : values.getD j 0 - values.getD m 0 < b
        · have hstep : sweepStep values props t st m
              = (some (values.getD j 0 - values.getD m 0), m, j) := by
            simp only [sweepStep, hfj, hb1]
            rw [if_pos hcmp]
          rw [hstep]
          constructor
          · intro h1
            simp at h1
          · intro b' hb'
            have hb'' : values.getD j 0 - values.getD m 0 = b' := Option.some_inj.mp hb'
            refine ⟨hfj, hb''.symm, Nat.lt_succ_self m, ?_, ?_⟩
            · intro i j' hi hji
              rcases Nat.lt_succ_iff_lt_or_eq.mp hi with hlt | rfl
              · have h4 := g4 i j' hlt hji
                rw [← hb'']
                linarith
              · rw [hfj] at hji
                cases Option.some_inj.mp hji
                exact le_of_eq hb''.symm
            · intro i j' hi hji
              have hi' : i < m := hi
              have h4 := g4 i j' (Nat.lt_of_lt_of_le hi' (le_refl m)) hji
              rw [← hb'']
              linarith
        · have hstep : sweepStep values props t st m = st := by
            simp only [sweepStep, hfj, hb1]
            rw [if_neg hcmp]
          rw [hstep]
          constructor
          · intro h1
            rw [h1] at hb1
            exact absurd hb1 (by simp)
          · intro b' hb'
            rw [hb1] at hb'
            cases Option.some_inj.mp hb'
            refine ⟨g1, g2, Nat.lt_succ_of_lt g3, ?_, g5⟩
            intro i j' hi hji
            rcases Nat.lt_succ_iff_lt_or_eq.mp hi with hlt | rfl
            · exact g4 i j' hlt hji
            · rw [hfj] at hji
              cases Option.some_inj.mp hji
              linarith [not_lt.mp hcmp]

theorem eps12_pos : (0 : ℚ) < eps12 := by
  rw [eps12]; norm_num

/-- C1: for a non-empty table with ascending values, non-negative proportions
summing to 1, and a target `t ∈ (0,1]`, `find_shortest_interval_covering_prob`
returns an interval `[value bi, value bj]` whose achieved probability is the
sum of the proportions from `bi` to `bj` and is at least `t - 1e-12` (hence at
least `t - 1e-9`); no interval achieving probability `≥ t` is strictly
shorter; the right endpoint is the first index at which the left-to-right
accumulation from `bi` reaches the target, and ties in width are broken by the
leftmost minimal-width interval found in the single left-to-right sweep. -/
theorem shortest_interval_spec (stats : List CategoryStatsEntry) (t : ℚ)
    (hne : stats ≠ [])
    (hsort : List.Sorted (· ≤ ·) (stats.map (fun e => e.value)))
    (hprop : ∀ e ∈ stats, 0 ≤ e.proportion)
    (hsum : (stats.map (fun e => e.proportion)).sum = 1)
    (ht0 : 0 < t) (ht1 : t ≤ 1) :
    ∃ bi bj, bi ≤ bj ∧ bj < stats.length
      ∧ (findShortestIntervalCoveringProb stats t).1
          = some ((stats.map (fun e => e.value)).getD bi 0)
      ∧ (findShortestIntervalCoveringProb stats t).2.2.1
          = some ((stats.map (fun e => e.value)).getD bj 0)
      ∧ (findShortestIntervalCoveringProb stats t).2.2.2
          = sumFromTo (stats.map (fun e => e.proportion)) bi bj
      ∧ t - eps12 ≤ sumFromTo (stats.map (fun e => e.proportion)) bi bj
      ∧ (∀ i j, i ≤ j → j < stats.length →
          t ≤ sumFromTo (stats.map (fun e => e.proportion)) i j →
          (stats.map (fun e => e.value)).getD bj 0
            - (stats.map (fun e => e.value)).getD bi 0
          ≤ (stats.map (fun e => e.value)).getD j 0
            - (stats.map (fun e => e.value)).getD i 0)
      ∧ firstJ (stats.map (fun e => e.proportion)) t bi = some bj
      ∧ (∀ i j, i < bi → firstJ (stats.map (fun e => e.proportion)) t i = some j →
          (stats.map (fun e => e.value)).getD bj 0
            - (stats.map (fun e => e.value)).getD bi 0
          < (stats.map (fun e => e.value)).getD j 0
            - (stats.map (fun e => e.value)).getD i 0) := by
  have hn : 0 < stats.length := List.length_pos.mpr hne
  have hplen : (stats.map (fun e => e.proportion)).length = stats.length := by simp
  have hvlen : (stats.map (fun e => e.value)).length = stats.length := by simp
  have hpnn : ∀ p ∈ stats.map (fun e => e.proportion), 0 ≤ p := by
    intro p hp
    rw [List.mem_map] at hp
    obtain ⟨e, he, rfl⟩ := hp
    exact hprop e he
  have hsum0 : sumFromTo (stats.map (fun e => e.proportion)) 0 (stats.length - 1) = 1 := by
    rw [sumFromTo, List.drop_zero]
    have h1 : stats.length - 1 - 0 + 1 = (stats.map (fun e => e.proportion)).length := by
      omega
    rw [h1, List.take_of_length_le (le_refl _), hsum]
  have hfj0 : ∃ j0, firstJ (stats.map (fun e => e.proportion)) t 0 = some j0
      ∧ j0 ≤ stats.length - 1 := by
    apply firstJ_exists
    · omega
    · omega
    · rw [hsum0]
      have := eps12_pos
      linarith
  obtain ⟨j0, hj0, -⟩ := hfj0
  obtain ⟨invnone, invsome⟩ := sweep_invariant (stats.map (fun e => e.value))
    (stats.map (fun e => e.proportion)) t stats.length stats.length
  rcases hb : ((List.range stats.length).foldl
      (sweepStep (stats.map (fun e => e.value)) (stats.map (fun e => e.proportion)) t)
      (none, 0, stats.length - 1)).1 with _ | b
  · obtain ⟨hall, -⟩ := invnone hb
    rw [hall 0 hn] at hj0
    exact absurd hj0 (by simp)
  · obtain ⟨g1, g2, g3, g4, g5⟩ := invsome b hb
    obtain ⟨hij, hjlt, hcov, -⟩ := firstJ_some _ _ _ _ g1
    have hne' : ¬ stats.length = 0 := by omega
    have hres : sweep (stats.map (fun e => e.value)) (stats.map (fun e => e.proportion)) t
        stats.length
        = (List.range stats.length).foldl
            (sweepStep (stats.map (fun e => e.value)) (stats.map (fun e => e.proportion)) t)
            (none, 0, stats.length - 1) := rfl
    refine ⟨_, _, hij, by omega, ?_, ?_, ?_, ?_, ?_, g1, ?_⟩
    · rw [findShortestIntervalCoveringProb, if_neg hne']
      rfl
    · rw [findShortestIntervalCoveringProb, if_neg hne']
      rfl
    · rw [findShortestIntervalCoveringProb, if_neg hne']
      rfl
    · linarith
    · intro i j hij2 hjlt2 hsumt
      obtain ⟨j'', hj'', hle⟩ := firstJ_exists (stats.map (fun e => e.proportion)) t i j hij2
        (by omega)
        (by
          have := eps12_pos
          linarith)
      have h4 := g4 i j'' (by omega) hj''
      have hmono2 : (stats.map (fun e => e.value)).getD j'' 0
          ≤ (stats.map (fun e => e.value)).getD j 0 :=
        sorted_getD_mono _ hsort j'' j hle (by omega)
      rw [g2] at h4
      linarith
    · intro i j hi hji
      have h5 := g5 i j hi hji
      rw [g2] at h5
      linarith

/-- C1 witness: the uniform table on values 1..5 with target 0.6; the theorem
applies and (by its leftmost tie-break clause) the chosen interval is a
3-value window. -/
theorem shortest_interval_spec_witness :
    ∃ bi bj, bi ≤ bj ∧ bj < demoStats.length
      ∧ (findShortestIntervalCoveringProb demoStats (3 / 5)).1
          = some ((demoStats.map (fun e => e.value)).getD bi 0)
      ∧ (findShortestIntervalCoveringProb demoStats (3 / 5)).2.2.1
          = some ((demoStats.map (fun e => e.value)).getD bj 0)
      ∧ (findShortestIntervalCoveringProb demoStats (3 / 5)).2.2.2
          = sumFromTo (demoStats.map (fun e => e.proportion)) bi bj
      ∧ 3 / 5 - eps12 ≤ sumFromTo (demoStats.map (fun e => e.proportion)) bi bj
      ∧ (∀ i j, i ≤ j → j < demoStats.length →
          3 / 5 ≤ sumFromTo (demoStats.map (fun e => e.proportion)) i j →
          (demoStats.map (fun e => e.value)).getD bj 0
            - (demoStats.map (fun e => e.value)).getD bi 0
          ≤ (demoStats.map (fun e => e.value)).getD j 0
            - (demoStats.map (fun e => e.value)).getD i 0)
      ∧ firstJ (demoStats.map (fun e => e.proportion)) (3 / 5) bi = some bj
      ∧ (∀ i j, i < bi →
          firstJ (demoStats.map (fun e => e.proportion)) (3 / 5) i = some j →
          (demoStats.map (fun e => e.value)).getD bj 0
            - (demoStats.map (fun e => e.value)).getD bi 0
          < (demoStats.map (fun e => e.value)).getD j 0
            - (demoStats.map (fun e => e.value)).getD i 0) := by
  apply shortest_interval_spec demoStats (3 / 5)
  · simp [demoStats]
  · norm_num [demoStats, List.sorted_cons]
  · intro e he
    rw [demoStats] at he
    simp only [List.mem_cons, List.not_mem_nil, or_false] at he
    rcases he with rfl | rfl | rfl | rfl | rfl <;> norm_num
  · norm_num [demoStats]
  · norm_num
  · norm_num

/-! ### Theorems on step7_result_curve_plotting.py : highest-density interval estimator -/

theorem insertByLt_length {α : Type} (lt : α → α → Bool) (a : α) (l : List α) :
    (insertByLt lt a l).length = l.length + 1 := by
  induction l with
  | nil => rfl
  | cons b l ih =>
    rw [insertByLt]
    split
    · simp
    · simp [ih]

theorem insertByLt_mem {α : Type} (lt : α → α → Bool) (a x : α) (l : List α) :
    x ∈ insertByLt lt a l ↔ x = a ∨ x ∈ l := by
  induction l with
  | nil => simp [insertByLt]
  | cons b l ih =>
    rw [insertByLt]
    split
    · simp [or_comm, or_assoc, or_left_comm]
    · simp only [List.mem_cons, ih]
      tauto

theorem insertByLt_sorted (a : ℚ) (l : List ℚ)
    (hs : List.Sorted (· ≤ ·) l) :
    List.Sorted (· ≤ ·) (insertByLt (fun x y => decide (x < y)) a l) := by
  induction l with
  | nil => simp [insertByLt]
  | cons b l ih =>
    rw [insertByLt]
    rw [List.sorted_cons] at hs
    obtain ⟨hb, hsl⟩ := hs
    split
    · have hab : a < b := by
        rename_i hcond
        simpa using of_decide_eq_true hcond
      rw [List.sorted_cons]
      refine ⟨?_, List.sorted_cons.mpr ⟨hb, hsl⟩⟩
      intro c hc
      rcases List.mem_cons.mp hc with rfl | hcl
      · exact le_of_lt hab
      · exact le_trans (le_of_lt hab) (hb c hcl)
    · have hba : b ≤ a := by
        rename_i hcond
        simpa using hcond
      rw [List.sorted_cons]
      refine ⟨?_, ih hsl⟩
      intro c hc
      rcases (insertByLt_mem _ a c l).mp hc with rfl | hcl
      · exact hba
      · exact hb c hcl

theorem sortQ_sorted (l : List ℚ) : List.Sorted (· ≤ ·) (sortQ l) := by
  rw [sortQ, sortByLt]
  suffices h : ∀ (acc : List ℚ), List.Sorted (· ≤ ·) acc →
      List.Sorted (· ≤ ·)
        (l.foldl (fun acc a => insertByLt (fun x y => decide (x < y)) a acc) acc) by
    exact h [] (by simp)
  induction l with
  | nil => intro acc hacc; exact hacc
  | cons a l ih =>
    intro acc hacc
    rw [List.foldl_cons]
    exact ih _ (insertByLt_sorted a acc hacc)

theorem sortQ_length (l : List ℚ) : (sortQ l).length = l.length := by
  rw [sortQ, sortByLt]
  suffices h : ∀ (acc : List ℚ),
      (l.foldl (fun acc a => insertByLt (fun x y => decide (x < y)) a acc) acc).length
        = acc.length + l.length by
    simpa using h []
  induction l with
  | nil => intro acc; simp
  | cons a l ih =>
    intro acc
    rw [List.foldl_cons, ih, insertByLt_length, List.length_cons]
    omega

theorem pickLoop_spec (w : ℚ × ℚ → ℚ) (x : ℚ × ℚ) (xs : List (ℚ × ℚ)) :
    ∃ i, i < (x :: xs).length
      ∧ pickLoop w x xs = (x :: xs).getD i (0, 0)
      ∧ (∀ j, j < (x :: xs).length → w (pickLoop w x xs) ≤ w ((x :: xs).getD j (0, 0)))
      ∧ (∀ j, j < i → w (pickLoop w x xs) < w ((x :: xs).getD j (0, 0))) := by
  induction xs generalizing x with
  | nil =>
    refine ⟨0, by simp, rfl, ?_, ?_⟩
    · intro j hj
      have hj0 : j = 0 := by
        simp only [List.length_cons, List.length_nil] at hj
        omega
      subst hj0
      simp [pickLoop]
    · intro j hj
      omega
  | cons y ys ih =>
    rw [pickLoop]
    split
    · rename_i hlt
      obtain ⟨i', hi', heq, hmin, hstrict⟩ := ih y
      refine ⟨i' + 1, by simpa using hi', by simpa using heq, ?_, ?_⟩
      · intro j hj
        rcases j with _ | j'
        · simp only [List.getD_cons_zero]
          calc w (pickLoop w y ys) ≤ w ((y :: ys).getD 0 (0, 0)) := hmin 0 (by simp)
            _ = w y := by simp
            _ ≤ w x := le_of_lt hlt
        · rw [List.getD_cons_succ]
          exact hmin j' (by simpa using hj)
      · intro j hj
        rcases j with _ | j'
        · simp only [List.getD_cons_zero]
          calc w (pickLoop w y ys) ≤ w y := by simpa using hmin 0 (by simp)
            _ < w x := hlt
        · rw [List.getD_cons_succ]
          exact hstrict j' (by omega)
    · rename_i hge
      have hxy : w x ≤ w y := by linarith [not_lt.mp hge]
      obtain ⟨i', hi', heq, hmin, hstrict⟩ := ih x
      rcases i' with _ | i''
      · refine ⟨0, by simp, by simpa using heq, ?_, ?_⟩
        · intro j hj
          rcases j with _ | j'
          · exact hmin 0 (by simp)
          · rcases j' with _ | j''
            · simp only [List.getD_cons_succ, List.getD_cons_zero]
              calc w (pickLoop w x ys) ≤ w ((x :: ys).getD 0 (0, 0)) := hmin 0 (by simp)
                _ = w x := by simp
                _ ≤ w y := hxy
            · simp only [List.getD_cons_succ]
              have := hmin (j'' + 1) (by simpa using hj)
              simpa using this
        · intro j hj
          omega
      · refine ⟨i'' + 2, by simpa using hi', ?_, ?_, ?_⟩
        · rw [heq]
          simp
        · intro j hj
          rcases j with _ | j'
          · exact hmin 0 (by simp)
          · rcases j' with _ | j''
            · simp only [List.getD_cons_succ, List.getD_cons_zero]
              calc w (pickLoop w x ys) ≤ w ((x :: ys).getD 0 (0, 0)) := hmin 0 (by simp)
                _ = w x := by simp
                _ ≤ w y := hxy
            · simp only [List.getD_cons_succ]
              have := hmin (j'' + 1) (by simpa using hj)
              simpa using this
        · intro j hj
          rcases j with _ | j'
          · have := hstrict 0 (by omega)
            simpa using this
          · rcases j' with _ | j''
            · simp only [List.getD_cons_succ, List.getD_cons_zero]
              have h0 := hstrict 0 (by omega)
              simp only [List.getD_cons_zero] at h0
              linarith
            · simp only [List.getD_cons_succ]
              have := hstrict (j'' + 1) (by omega)
              simpa using this

theorem zip_drop_getD (s : List ℚ) (m i : ℕ) (h : i < (s.zip (s.drop m)).length) :
    (s.zip (s.drop m)).getD i (0, 0) = (s.getD i 0, s.getD (m + i) 0) := by
  have hlen := h
  rw [List.length_zip, List.length_drop] at hlen
  have h1 : i < s.length := by omega
  have h2 : m + i < s.length := by omega
  rw [List.getD_eq_getElem _ _ h, List.getElem_zip]
  have h3 : i < (s.drop m).length := by
    rw [List.length_drop]; omega
  congr 1
  · exact (List.getD_eq_getElem _ _ h1).symm
  · rw [List.getElem_drop]
    exact (List.getD_eq_getElem _ _ h2).symm

theorem windows_length (s : List ℚ) (m : ℕ) :
    (s.zip (s.drop m)).length = s.length - m := by
  rw [List.length_zip, List.length_drop]
  omega

/-- Window characterization of `calculate_highest_density_interval` when the
window size is at least 1 and at most the data length: the result is the
leftmost window of `hdiSize` consecutive sorted elements with minimal span. -/
theorem hdi_window (data : List ℚ) (alpha : ℚ) (hne : data ≠ [])
    (hk1 : 1 ≤ hdiSize data alpha) (hkn : hdiSize data alpha ≤ data.length) :
    ∃ i, i + hdiSize data alpha ≤ data.length
      ∧ calculateHighestDensityInterval data alpha
          = ((sortQ data).getD i 0, (sortQ data).getD (i + hdiSize data alpha - 1) 0)
      ∧ (∀ j, j + hdiSize data alpha ≤ data.length →
          (sortQ data).getD (i + hdiSize data alpha - 1) 0 - (sortQ data).getD i 0
            ≤ (sortQ data).getD (j + hdiSize data alpha - 1) 0 - (sortQ data).getD j 0)
      ∧ (∀ j, j < i →
          (sortQ data).getD (i + hdiSize data alpha - 1) 0 - (sortQ data).getD i 0
            < (sortQ data).getD (j + hdiSize data alpha - 1) 0 - (sortQ data).getD j 0) := by
  have hn : 0 < data.length := List.length_pos.mpr hne
  have hslen : (sortQ data).length = data.length := sortQ_length data
  have hfloor : ⌊(1 - alpha) * ((sortQ data).length : ℚ)⌋
      = ⌊(1 - alpha) * (data.length : ℚ)⌋ := by rw [hslen]
  have hkz1 : 1 ≤ ⌊(1 - alpha) * (data.length : ℚ)⌋ := by
    rw [hdiSize] at hk1
    omega
  have hwl : ((sortQ data).zip ((sortQ data).drop (hdiSize data alpha - 1))).length
      = data.length - (hdiSize data alpha - 1) := by
    rw [windows_length, hslen]
  rcases hw : (sortQ data).zip ((sortQ data).drop (hdiSize data alpha - 1)) with _ | ⟨x, xs⟩
  · rw [hw] at hwl
    simp at hwl
    omega
  · have hcalc : calculateHighestDensityInterval data alpha
        = pickLoop (fun p => p.2 - p.1) x xs := by
      rw [calculateHighestDensityInterval, if_neg (by omega), if_neg (by rw [hfloor]; omega)]
      rw [show (⌊(1 - alpha) * ((sortQ data).length : ℚ)⌋).toNat = hdiSize data alpha by
        rw [hfloor, hdiSize]]
      rw [hw]
      rfl
    obtain ⟨i, hi, heq, hmin, hstrict⟩ := pickLoop_spec (fun p => p.2 - p.1) x xs
    rw [← hw] at hi heq hmin hstrict
    have hilen : i < data.length - (hdiSize data alpha - 1) := by
      rw [← hwl]
      exact hi
    have hgetDi := zip_drop_getD (sortQ data) (hdiSize data alpha - 1) i hi
    refine ⟨i, by omega, ?_, ?_, ?_⟩
    · rw [hcalc, heq, hgetDi]
      have : hdiSize data alpha - 1 + i = i + hdiSize data alpha - 1 := by omega
      rw [this]
    · intro j hj
      have hjlt : j < ((sortQ data).zip ((sortQ data).drop (hdiSize data alpha - 1))).length := by
        rw [hwl]; omega
      have h1 := hmin j hjlt
      rw [heq, hgetDi, zip_drop_getD (sortQ data) (hdiSize data alpha - 1) j hjlt] at h1
      have e1 : hdiSize data alpha - 1 + i = i + hdiSize data alpha - 1 := by omega
      have e2 : hdiSize data alpha - 1 + j = j + hdiSize data alpha - 1 := by omega
      rw [e1, e2] at h1
      exact h1
    · intro j hj
      have hjlt : j < ((sortQ data).zip ((sortQ data).drop (hdiSize data alpha - 1))).length := by
        rw [hwl]; omega
      have h1 := hstrict j hj
      rw [heq, hgetDi, zip_drop_getD (sortQ data) (hdiSize data alpha - 1) j hjlt] at h1
      have e1 : hdiSize data alpha - 1 + i = i + hdiSize data alpha - 1 := by omega
      have e2 : hdiSize data alpha - 1 + j = j + hdiSize data alpha - 1 := by omega
      rw [e1, e2] at h1
      exact h1

/-- C2: for a non-empty sample and `alpha ∈ (0,1)` whose window size
`k = floor((1 - alpha) * n)` is at least 1, the HDI estimator sorts the
sample ascending, slides a window of exactly `k` consecutive sorted elements,
selects the minimal-span window with ties broken by the first window found,
and returns that window's first and last elements as (min, max);
`calculate_statistics` combines this interval (at the fixed
`alpha = 0.000063`) with the empirical median of the whole sample, and
returns (0,0,0) for an empty sample. -/
theorem hdi_estimator_spec (data : List ℚ) (alpha : ℚ)
    (ha0 : 0 < alpha) (ha1 : alpha < 1) (hne : data ≠ [])
    (hk1 : 1 ≤ hdiSize data alpha) :
    (List.Sorted (· ≤ ·) (sortQ data)
      ∧ ∃ i, i + hdiSize data alpha ≤ data.length
        ∧ calculateHighestDensityInterval data alpha
            = ((sortQ data).getD i 0, (sortQ data).getD (i + hdiSize data alpha - 1) 0)
        ∧ (∀ j, j + hdiSize data alpha ≤ data.length →
            (sortQ data).getD (i + hdiSize data alpha - 1) 0 - (sortQ data).getD i 0
              ≤ (sortQ data).getD (j + hdiSize data alpha - 1) 0 - (sortQ data).getD j 0)
        ∧ (∀ j, j < i →
            (sortQ data).getD (i + hdiSize data alpha - 1) 0 - (sortQ data).getD i 0
              < (sortQ data).getD (j + hdiSize data alpha - 1) 0 - (sortQ data).getD j 0))
    ∧ calculateStatistics data
        = ((calculateHighestDensityInterval data (63 / 1000000)).1, medianQ data,
           (calculateHighestDensityInterval data (63 / 1000000)).2)
    ∧ calculateStatistics [] = (0, 0, 0) := by
  have hn : 0 < data.length := List.length_pos.mpr hne
  have hnq : (0 : ℚ) < (data.length : ℚ) := by exact_mod_cast hn
  have hkn : hdiSize data alpha ≤ data.length := by
    rw [hdiSize]
    have h : ⌊(1 - alpha) * (data.length : ℚ)⌋ < (data.length : ℤ) := by
      apply Int.floor_lt.mpr
      push_cast
      nlinarith
    omega
  refine ⟨⟨sortQ_sorted data, hdi_window data alpha hne hk1 hkn⟩, ?_, rfl⟩
  rw [calculateStatistics, if_neg (by omega)]

/-- C2 witness: the sample (0, 1, 10) at `alpha = 1/4` has window size
`k = floor(0.75 * 3) = 2`; the theorem instantiates. -/
theorem hdi_estimator_spec_witness :
    (List.Sorted (· ≤ ·) (sortQ [0, 1, 10])
      ∧ ∃ i, i + hdiSize [0, 1, 10] (1 / 4) ≤ ([0, 1, 10] : List ℚ).length
        ∧ calculateHighestDensityInterval [0, 1, 10] (1 / 4)
            = ((sortQ [0, 1, 10]).getD i 0,
               (sortQ [0, 1, 10]).getD (i + hdiSize [0, 1, 10] (1 / 4) - 1) 0)
        ∧ (∀ j, j + hdiSize [0, 1, 10] (1 / 4) ≤ ([0, 1, 10] : List ℚ).length →
            (sortQ [0, 1, 10]).getD (i + hdiSize [0, 1, 10] (1 / 4) - 1) 0
              - (sortQ [0, 1, 10]).getD i 0
            ≤ (sortQ [0, 1, 10]).getD (j + hdiSize [0, 1, 10] (1 / 4) - 1) 0
              - (sortQ [0, 1, 10]).getD j 0)
        ∧ (∀ j, j < i →
            (sortQ [0, 1, 10]).getD (i + hdiSize [0, 1, 10] (1 / 4) - 1) 0
              - (sortQ [0, 1, 10]).getD i 0
            < (sortQ [0, 1, 10]).getD (j + hdiSize [0, 1, 10] (1 / 4) - 1) 0
              - (sortQ [0, 1, 10]).getD j 0))
    ∧ calculateStatistics [0, 1, 10]
        = ((calculateHighestDensityInterval [0, 1, 10] (63 / 1000000)).1,
           medianQ [0, 1, 10],
           (calculateHighestDensityInterval [0, 1, 10] (63 / 1000000)).2)
    ∧ calculateStatistics [] = (0, 0, 0) := by
  apply hdi_estimator_spec [0, 1, 10] (1 / 4)
  · norm_num
  · norm_num
  · simp
  · rw [hdiSize]
    have h : ⌊(1 - 1 / 4 : ℚ) * ((([0, 1, 10] : List ℚ).length : ℕ) : ℚ)⌋ = 2 := by
      norm_num
    rw [h]
    norm_num

/-- C7 amended: for every non-empty sample whose size is not exactly 2, the
summary satisfies HDI_min ≤ median ≤ HDI_max at the fixed alpha = 0.000063
(for n = 1 the degenerate full-range branch returns the unique element; for
n ≥ 3 the window of `floor(0.999937 n)` elements always covers the median
positions). At n = 2 the window has a single element and the invariant fails
(see the counterexample). -/
theorem hdi_contains_median (data : List ℚ) (hne : data ≠ [])
    (hn2 : data.length ≠ 2) :
    (calculateStatistics data).1 ≤ (calculateStatistics data).2.1
    ∧ (calculateStatistics data).2.1 ≤ (calculateStatistics data).2.2 := by
  have hn : 0 < data.length := List.length_pos.mpr hne
  have hslen := sortQ_length data
  have hsorted := sortQ_sorted data
  have hglue : calculateStatistics data
      = ((calculateHighestDensityInterval data (63 / 1000000)).1, medianQ data,
         (calculateHighestDensityInterval data (63 / 1000000)).2) := by
    rw [calculateStatistics, if_neg (by omega)]
  rcases Nat.lt_or_ge data.length 2 with h1 | h2
  · have hn1 : data.length = 1 := by omega
    have hsl1 : (sortQ data).length = 1 := by rw [hslen, hn1]
    obtain ⟨x, hx⟩ : ∃ x, sortQ data = [x] := by
      rcases hsq : sortQ data with _ | ⟨a, _ | ⟨b, l⟩⟩
      · rw [hsq] at hsl1; simp at hsl1
      · exact ⟨a, rfl⟩
      · rw [hsq] at hsl1; simp at hsl1
    have hhdi : calculateHighestDensityInterval data (63 / 1000000) = (x, x) := by
      rw [calculateHighestDensityInterval, if_neg (by omega),
        if_pos (by rw [hsl1]; norm_num), hx]
      rfl
    have hmed : medianQ data = x := by
      rw [medianQ, if_neg (by rw [hsl1]; omega), if_pos (by rw [hsl1]), hsl1, hx]
      rfl
    rw [hglue, hhdi, hmed]
    exact ⟨le_refl x, le_refl x⟩
  · have hn3 : 3 ≤ data.length := by omega
    have hnq : (3 : ℚ) ≤ (data.length : ℚ) := by exact_mod_cast hn3
    have hk1 : 1 ≤ hdiSize data (63 / 1000000) := by
      rw [hdiSize]
      have h : (1 : ℤ) ≤ ⌊(1 - 63 / 1000000 : ℚ) * (data.length : ℚ)⌋ := by
        apply Int.le_floor.mpr
        push_cast
        nlinarith
      omega
    have hkn : hdiSize data (63 / 1000000) ≤ data.length := by
      rw [hdiSize]
      have h : ⌊(1 - 63 / 1000000 : ℚ) * (data.length : ℚ)⌋ < (data.length : ℤ) := by
        apply Int.floor_lt.mpr
        push_cast
        nlinarith
      omega
    have hkbig : data.length / 2 + 1 ≤ hdiSize data (63 / 1000000) := by
      rw [hdiSize]
      have hcast : ((data.length / 2 : ℕ) : ℚ) ≤ (data.length : ℚ) / 2 :=
        Nat.cast_div_le
      have h : ((data.length / 2 : ℕ) : ℤ) + 1
          ≤ ⌊(1 - 63 / 1000000 : ℚ) * (data.length : ℚ)⌋ := by
        apply Int.le_floor.mpr
        have htarget : ((data.length / 2 : ℕ) : ℚ) + 1
            ≤ (1 - 63 / 1000000) * (data.length : ℚ) := by
          linarith
        exact_mod_cast htarget
      omega
    obtain ⟨i, hik, heq, -, -⟩ := hdi_window data (63 / 1000000) hne hk1 hkn
    have hmedb : (sortQ data).getD i 0 ≤ medianQ data
        ∧ medianQ data ≤ (sortQ data).getD (i + hdiSize data (63 / 1000000) - 1) 0 := by
      rw [medianQ, if_neg (by rw [hslen]; omega)]
      by_cases hpar : (sortQ data).length % 2 = 1
      · rw [if_pos hpar]
        rw [hslen] at hpar ⊢
        have hb1 : i ≤ data.length / 2 := by omega
        have hb2 : data.length / 2 ≤ i + hdiSize data (63 / 1000000) - 1 := by omega
        constructor
        · exact sorted_getD_mono _ hsorted i (data.length / 2) hb1 (by rw [hslen]; omega)
        · exact sorted_getD_mono _ hsorted (data.length / 2)
            (i + hdiSize data (63 / 1000000) - 1) hb2 (by rw [hslen]; omega)
      · rw [if_neg hpar]
        rw [hslen] at hpar ⊢
        have hb1 : i ≤ data.length / 2 - 1 := by omega
        have hb2 : data.length / 2 ≤ i + hdiSize data (63 / 1000000) - 1 := by omega
        have g1 := sorted_getD_mono _ hsorted i (data.length / 2 - 1) hb1
          (by rw [hslen]; omega)
        have g2 := sorted_getD_mono _ hsorted i (data.length / 2) (by omega)
          (by rw [hslen]; omega)
        have g3 := sorted_getD_mono _ hsorted (data.length / 2 - 1)
          (i + hdiSize data (63 / 1000000) - 1) (by omega) (by rw [hslen]; omega)
        have g4 := sorted_getD_mono _ hsorted (data.length / 2)
          (i + hdiSize data (63 / 1000000) - 1) hb2 (by rw [hslen]; omega)
        constructor
        · linarith
        · linarith
    rw [hglue, heq]
    exact ⟨hmedb.1, hmedb.2⟩

/-- C7 witness: the three-element sample (5, 1, 3) satisfies
HDI_min ≤ median ≤ HDI_max. -/
theorem hdi_contains_median_witness :
    (calculateStatistics [5, 1, 3]).1 ≤ (calculateStatistics [5, 1, 3]).2.1
    ∧ (calculateStatistics [5, 1, 3]).2.1 ≤ (calculateStatistics [5, 1, 3]).2.2 :=
  hdi_contains_median [5, 1, 3] (by simp) (by simp)

/-- C7 counterexample: for the two-element sample (0, 1) the window size is
`floor(0.999937 * 2) = 1`, the leftmost single-element window is (0, 0), and
the median 1/2 exceeds HDI_max = 0, violating HDI_min ≤ median ≤ HDI_max. -/
theorem hdi_median_counterexample :
    calculateStatistics [0, 1] = (0, 1 / 2, 0)
    ∧ ¬ ((calculateStatistics [0, 1]).2.1 ≤ (calculateStatistics [0, 1]).2.2) := by
  have hsort : sortQ [0, 1] = [0, 1] := by
    norm_num [sortQ, sortByLt, insertByLt]
  have hfl : ⌊(1 - 63 / 1000000 : ℚ) * (((sortQ [0, 1]).length : ℕ) : ℚ)⌋ = 1 := by
    rw [hsort]
    norm_num
  have hhdi : calculateHighestDensityInterval [0, 1] (63 / 1000000) = (0, 0) := by
    rw [calculateHighestDensityInterval, if_neg (by norm_num), if_neg (by rw [hfl]; norm_num)]
    rw [hfl, hsort]
    norm_num [hdiPick, pickLoop]
  have hmed : medianQ [0, 1] = 1 / 2 := by
    rw [medianQ, hsort]
    norm_num
  constructor
  · rw [calculateStatistics, if_neg (by norm_num), hhdi, hmed]
  · rw [calculateStatistics, if_neg (by norm_num), hhdi, hmed]
    norm_num

/-! ### Theorems on step5_interpolation_1.py : linear interpolation -/

theorem insertByLt_append (a : ℚ × ℚ) (acc : List (ℚ × ℚ))
    (h : ∀ b ∈ acc, ¬ a.1 < b.1) :
    insertByLt (fun p q => decide (p.1 < q.1)) a acc = acc ++ [a] := by
  induction acc with
  | nil => rfl
  | cons b l ih =>
    rw [insertByLt, if_neg (by simpa using h b (List.mem_cons_self b l)),
      ih (fun c hc => h c (List.mem_cons_of_mem b hc))]
    rfl

theorem sortPairsQ_eq_self (l : List (ℚ × ℚ))
    (h : List.Pairwise (fun p q => p.1 < q.1) l) : sortPairsQ l = l := by
  rw [sortPairsQ, sortByLt]
  suffices hgen : ∀ (l' acc : List (ℚ × ℚ)),
      List.Pairwise (fun p q => p.1 < q.1) l' →
      (∀ a ∈ l', ∀ b ∈ acc, b.1 < a.1) →
      l'.foldl (fun acc a => insertByLt (fun p q => decide (p.1 < q.1)) a acc) acc
        = acc ++ l' by
    simpa using hgen l [] h (by simp)
  intro l'
  induction l' with
  | nil => intro acc _ _; simp
  | cons a l' ih =>
    intro acc hp hall
    rw [List.foldl_cons,
      insertByLt_append a acc
        (fun b hb => not_lt.mpr (le_of_lt (hall a (List.mem_cons_self a l') b hb)))]
    rw [ih (acc ++ [a]) (List.pairwise_cons.mp hp).2 ?_]
    · simp
    · intro c hc b hb
      rcases List.mem_append.mp hb with hb1 | hb2
      · exact hall c (List.mem_cons_of_mem a hc) b hb1
      · have hba : b = a := by simpa using hb2
        subst hba
        exact (List.pairwise_cons.mp hp).1 c hc

theorem zip_pairwise_fst (xd yd : List ℚ)
    (h : List.Pairwise (· < ·) xd) :
    List.Pairwise (fun p q : ℚ × ℚ => p.1 < q.1) (xd.zip yd) := by
  induction xd generalizing yd with
  | nil => simp
  | cons x xs ih =>
    rcases yd with _ | ⟨y, ys⟩
    · simp
    · rw [List.zip_cons_cons, List.pairwise_cons]
      rw [List.pairwise_cons] at h
      refine ⟨?_, ih ys h.2⟩
      intro q hq
      exact h.1 q.1 (List.mem_zip hq).1

theorem zip_getD_pair (xd yd : List ℚ) (k : ℕ) (hk : k < xd.length)
    (hlen : xd.length = yd.length) :
    (xd.zip yd).getD k (0, 0) = (xd.getD k 0, yd.getD k 0) := by
  have hzl : (xd.zip yd).length = xd.length := by
    rw [List.length_zip]; omega
  rw [List.getD_eq_getElem _ _ (by omega), List.getElem_zip]
  congr 1
  · exact (List.getD_eq_getElem _ _ hk).symm
  · exact (List.getD_eq_getElem _ _ (by omega)).symm

theorem pairwise_getD_lt (l : List ℚ) (h : List.Pairwise (· < ·) l)
    (i j : ℕ) (hij : i < j) (hj : j < l.length) : l.getD i 0 < l.getD j 0 := by
  rw [List.getD_eq_getElem _ _ (lt_trans hij hj), List.getD_eq_getElem _ _ hj]
  have hgot := List.pairwise_iff_get.mp h ⟨i, lt_trans hij hj⟩ ⟨j, hj⟩ hij
  simpa using hgot

theorem getLastD_eq_getD (p : ℚ × ℚ) (rest : List (ℚ × ℚ)) :
    rest.getLastD p = (p :: rest).getD ((p :: rest).length - 1) (0, 0) := by
  induction rest generalizing p with
  | nil => rfl
  | cons q rest ih =>
    rw [List.getLastD_cons, ih q]
    have h1 : (p :: q :: rest).length - 1 = ((q :: rest).length - 1) + 1 := by
      simp
    rw [h1, List.getD_cons_succ]

theorem bracketScan_at (L : List (ℚ × ℚ)) (k : ℕ) (hk : k + 1 < L.length) (xt : ℚ)
    (h1 : (L.getD k (0, 0)).1 ≤ xt) (h2 : xt ≤ (L.getD (k + 1) (0, 0)).1)
    (h0 : ∀ m < k, ¬ ((L.getD m (0, 0)).1 ≤ xt ∧ xt ≤ (L.getD (m + 1) (0, 0)).1)) :
    bracketScan xt L
      = (L.getD k (0, 0)).2
        + ((L.getD (k + 1) (0, 0)).2 - (L.getD k (0, 0)).2)
          * (xt - (L.getD k (0, 0)).1)
          / ((L.getD (k + 1) (0, 0)).1 - (L.getD k (0, 0)).1) := by
  induction L generalizing k with
  | nil => simp at hk
  | cons a L ihL =>
    rcases hL : L with _ | ⟨b, L'⟩
    · rw [hL] at hk
      simp at hk
    · subst hL
      rcases k with _ | k'
      · obtain ⟨xa, ya⟩ := a
        obtain ⟨xb, yb⟩ := b
        simp only [List.getD_cons_zero, List.getD_cons_succ] at h1 h2 ⊢
        rw [bracketScan, if_pos ⟨h1, h2⟩]
      · obtain ⟨xa, ya⟩ := a
        obtain ⟨xb, yb⟩ := b
        have hcond := h0 0 (Nat.succ_pos k')
        simp only [List.getD_cons_zero, List.getD_cons_succ] at hcond h1 h2 ⊢
        rw [bracketScan, if_neg hcond]
        refine ihL k' (by simpa using hk) h1 h2 ?_
        intro m hm
        have h3 := h0 (m + 1) (by omega)
        simpa using h3

/-- C9 amended over exact arithmetic: with strictly ascending knots,
`linear_interpolation` clamps to the first y at or below the first knot and
to the last y at or above the last knot; at a target equal to any knot it
returns that knot's y (exactly, in exact rational arithmetic - but for an
interior knot the value is computed by the bracketing formula rather than
returned verbatim, so bitwise equality is not guaranteed under floating
point, see the counterexample); strictly between two adjacent knots it
returns the linear interpolation of the bracketing pair. -/
theorem linear_interpolation_spec (xd yd : List ℚ)
    (hlen : xd.length = yd.length) (hne : xd ≠ [])
    (hx : List.Pairwise (· < ·) xd) :
    (∀ xt, xt ≤ xd.getD 0 0 → linearInterpolation xd yd xt = yd.getD 0 0)
    ∧ (∀ xt, xd.getD (xd.length - 1) 0 ≤ xt →
        linearInterpolation xd yd xt = yd.getD (xd.length - 1) 0)
    ∧ (∀ k, k < xd.length →
        linearInterpolation xd yd (xd.getD k 0) = yd.getD k 0)
    ∧ (∀ k xt, k + 1 < xd.length → xd.getD k 0 < xt → xt < xd.getD (k + 1) 0 →
        linearInterpolation xd yd xt
          = yd.getD k 0 + (yd.getD (k + 1) 0 - yd.getD k 0) * (xt - xd.getD k 0)
              / (xd.getD (k + 1) 0 - xd.getD k 0)) := by
  have hn : 0 < xd.length := List.length_pos.mpr hne
  have hsle : List.Sorted (· ≤ ·) xd := hx.imp le_of_lt
  have hzl : (xd.zip yd).length = xd.length := by
    rw [List.length_zip]; omega
  have hsorteq : sortPairsQ (xd.zip yd) = xd.zip yd :=
    sortPairsQ_eq_self _ (zip_pairwise_fst xd yd hx)
  rcases hzip : xd.zip yd with _ | ⟨p, rest⟩
  · rw [hzip] at hzl
    simp at hzl
    omega
  have hzl2 : (p :: rest).length = xd.length := by rw [← hzip]; exact hzl
  have hp0 : p = (xd.getD 0 0, yd.getD 0 0) := by
    have h := zip_getD_pair xd yd 0 hn hlen
    rw [hzip] at h
    simpa using h
  have hlast : rest.getLastD p = (xd.getD (xd.length - 1) 0, yd.getD (xd.length - 1) 0) := by
    have h2 := zip_getD_pair xd yd (xd.length - 1) (by omega) hlen
    rw [hzip] at h2
    rw [getLastD_eq_getD p rest, hzl2]
    exact h2
  have hinterp : ∀ xt, linearInterpolation xd yd xt = interpPick xt (p :: rest) := by
    intro xt
    rw [linearInterpolation, hsorteq, hzip]
  have hclamp_low : ∀ xt, xt ≤ xd.getD 0 0 → linearInterpolation xd yd xt = yd.getD 0 0 := by
    intro xt hxt
    rw [hinterp]
    simp only [interpPick]
    rw [if_pos (by rw [hp0]; exact hxt), hp0]
  have hclamp_high : ∀ xt, xd.getD (xd.length - 1) 0 ≤ xt →
      linearInterpolation xd yd xt = yd.getD (xd.length - 1) 0 := by
    intro xt hxt
    rw [hinterp]
    simp only [interpPick]
    by_cases hb1 : xt ≤ p.1
    · rw [if_pos hb1]
      rcases Nat.lt_or_ge 1 xd.length with h2 | h1len
      · exfalso
        have hlt := pairwise_getD_lt xd hx 0 (xd.length - 1) (by omega) (by omega)
        have hb1' : xt ≤ xd.getD 0 0 := by rw [hp0] at hb1; exact hb1
        linarith
      · have hn1 : xd.length = 1 := by omega
        rw [hp0, hn1]
    · rw [if_neg hb1, if_pos (by rw [hlast]; exact hxt), hlast]
  refine ⟨hclamp_low, hclamp_high, ?_, ?_⟩
  · intro k hk
    by_cases hk0 : k = 0
    · subst hk0
      exact hclamp_low _ (le_refl _)
    · by_cases hklast : k = xd.length - 1
      · subst hklast
        exact hclamp_high _ (le_refl _)
      · have hk1 : 1 ≤ k := by omega
        have hk2 : k + 1 ≤ xd.length - 1 := by omega
        rw [hinterp]
        simp only [interpPick]
        rw [if_neg (by
          rw [hp0]
          exact not_le.mpr (pairwise_getD_lt xd hx 0 k (by omega) hk))]
        rw [if_neg (by
          rw [hlast]
          exact not_le.mpr (pairwise_getD_lt xd hx k (xd.length - 1) (by omega) (by omega)))]
        rw [← hzip]
        have hidx : k - 1 + 1 = k := by omega
        have hz1 := zip_getD_pair xd yd (k - 1) (by omega) hlen
        have hz2 := zip_getD_pair xd yd k (by omega) hlen
        have h1 : ((xd.zip yd).getD (k - 1) (0, 0)).1 ≤ xd.getD k 0 := by
          rw [hz1]
          exact le_of_lt (pairwise_getD_lt xd hx (k - 1) k (by omega) hk)
        have h2 : xd.getD k 0 ≤ ((xd.zip yd).getD (k - 1 + 1) (0, 0)).1 := by
          rw [hidx, hz2]
        have h0 : ∀ m < k - 1,
            ¬ (((xd.zip yd).getD m (0, 0)).1 ≤ xd.getD k 0
              ∧ xd.getD k 0 ≤ ((xd.zip yd).getD (m + 1) (0, 0)).1) := by
          intro m hm
          rw [zip_getD_pair xd yd (m + 1) (by omega) hlen]
          rintro ⟨-, hc⟩
          have hlt := pairwise_getD_lt xd hx (m + 1) k (by omega) hk
          have hc' : xd.getD k 0 ≤ xd.getD (m + 1) 0 := hc
          linarith
        have hb := bracketScan_at (xd.zip yd) (k - 1) (by rw [hzl]; omega)
          (xd.getD k 0) h1 h2 h0
        rw [hidx] at hb
        have hdne : xd.getD k 0 - xd.getD (k - 1) 0 ≠ 0 :=
          sub_ne_zero.mpr (ne_of_gt (pairwise_getD_lt xd hx (k - 1) k (by omega) hk))
        have hb2 : bracketScan (xd.getD k 0) (xd.zip yd)
            = yd.getD (k - 1) 0 + (yd.getD k 0 - yd.getD (k - 1) 0)
              * (xd.getD k 0 - xd.getD (k - 1) 0) / (xd.getD k 0 - xd.getD (k - 1) 0) := by
          rw [hb, hz1, hz2]
        rw [hb2, mul_div_assoc, div_self hdne, mul_one]
        ring
  · intro k xt hk hlow hhigh
    rw [hinterp]
    simp only [interpPick]
    rw [if_neg (by
      rw [hp0]
      have h00 : xd.getD 0 0 ≤ xd.getD k 0 :=
        sorted_getD_mono xd hsle 0 k (by omega) (by omega)
      exact not_le.mpr (lt_of_le_of_lt h00 hlow))]
    rw [if_neg (by
      rw [hlast]
      have hge : xd.getD (k + 1) 0 ≤ xd.getD (xd.length - 1) 0 :=
        sorted_getD_mono xd hsle (k + 1) (xd.length - 1) (by omega) (by omega)
      exact not_le.mpr (lt_of_lt_of_le hhigh hge))]
    rw [← hzip]
    have hz1 := zip_getD_pair xd yd k (by omega) hlen
    have hz2 := zip_getD_pair xd yd (k + 1) (by omega) hlen
    have h1 : ((xd.zip yd).getD k (0, 0)).1 ≤ xt := by
      rw [hz1]
      exact le_of_lt hlow
    have h2 : xt ≤ ((xd.zip yd).getD (k + 1) (0, 0)).1 := by
      rw [hz2]
      exact le_of_lt hhigh
    have h0 : ∀ m < k,
        ¬ (((xd.zip yd).getD m (0, 0)).1 ≤ xt
          ∧ xt ≤ ((xd.zip yd).getD (m + 1) (0, 0)).1) := by
      intro m hm
      rw [zip_getD_pair xd yd (m + 1) (by omega) hlen]
      rintro ⟨-, hc⟩
      have hmk : xd.getD (m + 1) 0 ≤ xd.getD k 0 :=
        sorted_getD_mono xd hsle (m + 1) k (by omega) (by omega)
      have hc' : xt ≤ xd.getD (m + 1) 0 := hc
      linarith
    have hb := bracketScan_at (xd.zip yd) k (by rw [hzl]; omega) xt h1 h2 h0
    have hb2 : bracketScan xt (xd.zip yd)
        = yd.getD k 0 + (yd.getD (k + 1) 0 - yd.getD k 0) * (xt - xd.getD k 0)
          / (xd.getD (k + 1) 0 - xd.getD k 0) := by
      rw [hb, hz1, hz2]
    exact hb2

/-- C9 witness: knots (0,1), (2,5), (10,7); clamping below/above, exact
return at every knot, and the bracketing formula between knots 0 and 2. -/
theorem linear_interpolation_spec_witness :
    (∀ xt, xt ≤ ([0, 2, 10] : List ℚ).getD 0 0 →
      linearInterpolation [0, 2, 10] [1, 5, 7] xt = ([1, 5, 7] : List ℚ).getD 0 0)
    ∧ (∀ xt, ([0, 2, 10] : List ℚ).getD (([0, 2, 10] : List ℚ).length - 1) 0 ≤ xt →
      linearInterpolation [0, 2, 10] [1, 5, 7] xt
        = ([1, 5, 7] : List ℚ).getD (([0, 2, 10] : List ℚ).length - 1) 0)
    ∧ (∀ k, k < ([0, 2, 10] : List ℚ).length →
      linearInterpolation [0, 2, 10] [1, 5, 7] (([0, 2, 10] : List ℚ).getD k 0)
        = ([1, 5, 7] : List ℚ).getD k 0)
    ∧ (∀ k xt, k + 1 < ([0, 2, 10] : List ℚ).length →
      ([0, 2, 10] : List ℚ).getD k 0 < xt → xt < ([0, 2, 10] : List ℚ).getD (k + 1) 0 →
      linearInterpolation [0, 2, 10] [1, 5, 7] xt
        = ([1, 5, 7] : List ℚ).getD k 0
          + (([1, 5, 7] : List ℚ).getD (k + 1) 0 - ([1, 5, 7] : List ℚ).getD k 0)
            * (xt - ([0, 2, 10] : List ℚ).getD k 0)
            / (([0, 2, 10] : List ℚ).getD (k + 1) 0 - ([0, 2, 10] : List ℚ).getD k 0)) := by
  apply linear_interpolation_spec [0, 2, 10] [1, 5, 7]
  · rfl
  · simp
  · norm_num [List.pairwise_cons]

theorem pow2z_nonneg_eval (k : ℤ) (n : ℕ) (h : k = (n : ℤ)) : pow2z k = 2 ^ n := by
  subst h
  rw [pow2z, if_pos (by positivity)]
  norm_num

theorem pow2z_neg_eval (n : ℕ) (hn : 0 < n) : pow2z (-(n : ℤ)) = ((2 : ℚ) ^ n)⁻¹ := by
  rw [pow2z, if_neg (by omega), neg_neg, Int.toNat_natCast]

theorem pow2z_neg_one : pow2z (-1) = 1 / 2 := by
  rw [show (-1 : ℤ) = -((1 : ℕ) : ℤ) by norm_num, pow2z_neg_eval 1 (by norm_num)]
  norm_num

theorem findExp_lit (a : ℚ) (b : ℤ) (hb : findExpBase a = b)
    (h1 : ¬ a < pow2z b) (h2 : a < pow2z (b + 1)) : findExp a = b := by
  rw [findExp, hb, if_neg h1, if_pos h2]

theorem fe997 : findExp (9999999999999997 : ℚ) = 53 := by
  apply findExp_lit
  · rw [findExpBase]
    simp only [Rat.num_ofNat, Rat.den_ofNat]
    rw [show ilog2 (Int.natAbs 9999999999999997) = 53 by decide,
      show ilog2 1 = 0 by decide]
    norm_num
  · rw [pow2z_nonneg_eval 53 53 (by norm_num)]
    norm_num
  · rw [show (53 + 1 : ℤ) = 54 by norm_num, pow2z_nonneg_eval 54 54 (by norm_num)]
    norm_num

theorem flq997 : flQ (-9999999999999997) = -9999999999999996 := by
  rw [flQ, if_neg (by norm_num), if_neg (by norm_num)]
  rw [show |(-9999999999999997 : ℚ)| = 9999999999999997 by
    rw [abs_of_neg (by norm_num)]; norm_num]
  rw [fe997]
  rw [show (52 - 53 : ℤ) = -1 by norm_num, pow2z_neg_one]
  rw [show (9999999999999997 : ℚ) * (1 / 2) = 9999999999999997 / 2 by ring]
  rw [roundHalfEven]
  rw [show ⌊(9999999999999997 / 2 : ℚ)⌋ = 4999999999999998 by norm_num]
  rw [show (53 - 52 : ℤ) = 1 by norm_num, pow2z_nonneg_eval 1 1 (by norm_num)]
  norm_num

theorem flq996 : flQ (-9999999999999996) = -9999999999999996 := by
  rw [flQ, if_neg (by norm_num), if_neg (by norm_num)]
  rw [show |(-9999999999999996 : ℚ)| = 9999999999999996 by
    rw [abs_of_neg (by norm_num)]; norm_num]
  have he : findExp (9999999999999996 : ℚ) = 53 := by
    apply findExp_lit
    · rw [findExpBase]
      simp only [Rat.num_ofNat, Rat.den_ofNat]
      rw [show ilog2 (Int.natAbs 9999999999999996) = 53 by decide,
        show ilog2 1 = 0 by decide]
      norm_num
    · rw [pow2z_nonneg_eval 53 53 (by norm_num)]
      norm_num
    · rw [show (53 + 1 : ℤ) = 54 by norm_num, pow2z_nonneg_eval 54 54 (by norm_num)]
      norm_num
  rw [he]
  rw [show (52 - 53 : ℤ) = -1 by norm_num, pow2z_neg_one]
  rw [show (9999999999999996 : ℚ) * (1 / 2) = 4999999999999998 by norm_num]
  rw [roundHalfEven]
  rw [show ⌊(4999999999999998 : ℚ)⌋ = 4999999999999998 by norm_num]
  rw [show (53 - 52 : ℤ) = 1 by norm_num, pow2z_nonneg_eval 1 1 (by norm_num)]
  norm_num

theorem flq1 : flQ 1 = 1 := by
  rw [flQ, if_neg (by norm_num), if_pos (by norm_num)]
  rw [abs_one]
  have he : findExp (1 : ℚ) = 0 := by
    apply findExp_lit
    · rw [findExpBase]
      simp only [Rat.num_one, Rat.den_one]
      rw [show ilog2 (Int.natAbs 1) = 0 by decide, show ilog2 1 = 0 by decide]
      norm_num
    · rw [pow2z_nonneg_eval 0 0 (by norm_num)]
      norm_num
    · rw [show (0 + 1 : ℤ) = 1 by norm_num, pow2z_nonneg_eval 1 1 (by norm_num)]
      norm_num
  rw [he]
  rw [show (52 - 0 : ℤ) = 52 by norm_num, pow2z_nonneg_eval 52 52 (by norm_num)]
  rw [roundHalfEven]
  rw [show ((1 : ℚ) * 2 ^ 52) = 4503599627370496 by norm_num]
  rw [show ⌊(4503599627370496 : ℚ)⌋ = 4503599627370496 by norm_num]
  rw [show (0 - 52 : ℤ) = -((52 : ℕ) : ℤ) by norm_num, pow2z_neg_eval 52 (by norm_num)]
  norm_num

theorem flq4 : flQ 4 = 4 := by
  rw [flQ, if_neg (by norm_num), if_pos (by norm_num)]
  rw [show |(4 : ℚ)| = 4 from abs_of_pos (by norm_num)]
  have he : findExp (4 : ℚ) = 2 := by
    apply findExp_lit
    · rw [findExpBase]
      simp only [Rat.num_ofNat, Rat.den_ofNat]
      rw [show ilog2 (Int.natAbs 4) = 2 by decide, show ilog2 1 = 0 by decide]
      norm_num
    · rw [pow2z_nonneg_eval 2 2 (by norm_num)]
      norm_num
    · rw [show (2 + 1 : ℤ) = 3 by norm_num, pow2z_nonneg_eval 3 3 (by norm_num)]
      norm_num
  rw [he]
  rw [show (52 - 2 : ℤ) = 50 by norm_num, pow2z_nonneg_eval 50 50 (by norm_num)]
  rw [roundHalfEven]
  rw [show ((4 : ℚ) * 2 ^ 50) = 4503599627370496 by norm_num]
  rw [show ⌊(4503599627370496 : ℚ)⌋ = 4503599627370496 by norm_num]
  rw [show (2 - 52 : ℤ) = -((50 : ℕ) : ℤ) by norm_num, pow2z_neg_eval 50 (by norm_num)]
  norm_num

/-- C9 counterexample under IEEE-754 double arithmetic: for the points
(0, 10^16), (1, 3), (2, 1) the target x = 1 is an interior knot, so the
source recomputes the value through the bracketing formula
`y1 + (y2 - y1) * (x_target - x1) / (x2 - x1)`; with double rounding the
result is 4, not the stored knot value 3 (which the exact-arithmetic model
returns), so the knot value is not returned bitwise-exactly. -/
theorem interpolation_knot_counterexample :
    linearInterpolationF [0, 1, 2] [10 ^ 16, 3, 1] 1 = 4
    ∧ linearInterpolation [0, 1, 2] [10 ^ 16, 3, 1] 1 = 3
    ∧ (4 : ℚ) ≠ 3 := by
  have hzip : ([0, 1, 2] : List ℚ).zip ([10 ^ 16, 3, 1] : List ℚ)
      = [((0 : ℚ), (10 ^ 16 : ℚ)), (1, 3), (2, 1)] := rfl
  have hsort : sortPairsQ [((0 : ℚ), (10 ^ 16 : ℚ)), (1, 3), (2, 1)]
      = [((0 : ℚ), (10 ^ 16 : ℚ)), (1, 3), (2, 1)] :=
    sortPairsQ_eq_self _ (by norm_num [List.pairwise_cons])
  have hlast : ([((1 : ℚ), (3 : ℚ)), (2, 1)]).getLastD ((0 : ℚ), (10 ^ 16 : ℚ))
      = ((2 : ℚ), (1 : ℚ)) := rfl
  have h1 : fsub (3 : ℚ) (10 ^ 16) = -9999999999999996 := by
    rw [fsub, show (3 : ℚ) - 10 ^ 16 = -9999999999999997 by norm_num, flq997]
  have h2 : fsub (1 : ℚ) 0 = 1 := by
    rw [fsub, sub_zero, flq1]
  have h3 : fmul (-9999999999999996 : ℚ) 1 = -9999999999999996 := by
    rw [fmul, mul_one, flq996]
  have h4 : fdiv (-9999999999999996 : ℚ) 1 = -9999999999999996 := by
    rw [fdiv, div_one, flq996]
  have h5 : fadd ((10 : ℚ) ^ 16) (-9999999999999996) = 4 := by
    rw [fadd, show (10 : ℚ) ^ 16 + (-9999999999999996) = 4 by norm_num, flq4]
  refine ⟨?_, ?_, by norm_num⟩
  · rw [linearInterpolationF, hzip, hsort]
    simp only [interpPickF]
    rw [if_neg (show ¬ (1 : ℚ) ≤ 0 by norm_num), hlast,
      if_neg (show ¬ (2 : ℚ) ≤ 1 by norm_num)]
    simp only [bracketScanF]
    rw [if_pos (show (0 : ℚ) ≤ 1 ∧ (1 : ℚ) ≤ 1 by norm_num)]
    rw [h1, h2, h3, h4, h5]
  · rw [linearInterpolation, hzip, hsort]
    simp only [interpPick]
    rw [if_neg (show ¬ (1 : ℚ) ≤ 0 by norm_num), hlast,
      if_neg (show ¬ (2 : ℚ) ≤ 1 by norm_num)]
    simp only [bracketScan]
    rw [if_pos (show (0 : ℚ) ≤ 1 ∧ (1 : ℚ) ≤ 1 by norm_num)]
    norm_num

end LEDVC
